import Mathlib

/-!
# Formal model of the template-parameterized render cache (react-ssr-optimization)

This file gives a shallow embedding of the render-cache core implemented in
`src/lib/index.js` and proves properties of the path escaping
(`templatizeAttr` / `restoreAttr`, lines 98-133), of the cache-key
construction (line 180), and of the per-render-call state machine of the
wrapped `mountComponent` (lines 163-208).

JavaScript value trees are modelled as the inductive `JValue`; its object
fields and array elements use the mutually inductive list types `JFields`
and `JElems` so that every function of the model is structurally recursive
and computable by kernel reduction.  Machine-level aspects that the model
abstracts: object aliasing inside a props tree (trees are treated as trees),
named properties on arrays, and floating point numbers (only integer-valued
JS numbers appear in the model).
-/

namespace ReactSSR

/-! ## Decimal rendering of JavaScript non-negative numbers

JS coerces a number `n` to its decimal string (template literals,
`Array.prototype.join`, string concatenation).  `natStr` is a fuelled,
kernel-reducible model of that coercion for naturals; `decStr` is the
`Nat.digits`-based specification used to prove injectivity. -/

def natStrAux : Nat → Nat → List Char
  | 0, _ => []
  | f + 1, n =>
    if n < 10 then [Nat.digitChar n]
    else natStrAux f (n / 10) ++ [Nat.digitChar (n % 10)]

def natStr (n : Nat) : String := String.mk (natStrAux (n + 1) n)

/-- Decimal coercion of an integer-valued JS number. -/
def intStr (n : Int) : String :=
  if n < 0 then "-" ++ natStr n.natAbs else natStr n.toNat

/-- Specification-side decimal digit list (most significant first). -/
def decDigits (n : Nat) : List Char := ((Nat.digits 10 n).map Nat.digitChar).reverse

def decStr (n : Nat) : List Char := if n = 0 then ['0'] else decDigits n

theorem digitChar_inj_below_ten :
    ∀ d < 10, ∀ e < 10, Nat.digitChar d = Nat.digitChar e → d = e := by decide

theorem digitChar_isDigit : ∀ d < 10, (Nat.digitChar d).isDigit = true := by decide

theorem digitChar_ne_comma : ∀ d < 10, Nat.digitChar d ≠ ',' := by decide

theorem decStr_of_lt_ten (n : Nat) (hlt : n < 10) : decStr n = [Nat.digitChar n] := by
  by_cases h0 : n = 0
  · subst h0; rfl
  · have hd : Nat.digits 10 n = n % 10 :: Nat.digits 10 (n / 10) :=
      Nat.digits_def' (by norm_num) (Nat.pos_of_ne_zero h0)
    have hdiv : n / 10 = 0 := Nat.div_eq_of_lt hlt
    have hmod : n % 10 = n := Nat.mod_eq_of_lt hlt
    simp [decStr, h0, decDigits, hd, hdiv, hmod]

theorem natStrAux_succ (f n : Nat) : natStrAux (f + 1) n =
    if n < 10 then [Nat.digitChar n]
    else natStrAux f (n / 10) ++ [Nat.digitChar (n % 10)] := rfl

theorem natStrAux_eq_decStr : ∀ f n, n < 10 ^ (f + 1) → natStrAux (f + 1) n = decStr n := by
  intro f
  induction f with
  | zero =>
    intro n h
    have h10 : n < 10 := by simpa using h
    rw [natStrAux_succ, if_pos h10]
    exact (decStr_of_lt_ten n h10).symm
  | succ f ih =>
    intro n h
    by_cases hlt : n < 10
    · rw [natStrAux_succ, if_pos hlt]
      exact (decStr_of_lt_ten n hlt).symm
    · rw [natStrAux_succ, if_neg hlt]
      have hdivlt : n / 10 < 10 ^ (f + 1) := by
        rw [Nat.div_lt_iff_lt_mul (by norm_num : (0:Nat) < 10)]
        calc n < 10 ^ (f + 1 + 1) := h
        _ = 10 ^ (f + 1) * 10 := by ring
      rw [ih (n / 10) hdivlt]
      have hn0 : n ≠ 0 := by omega
      have hdiv0 : n / 10 ≠ 0 := by
        have h1 : 1 ≤ n / 10 :=
          (Nat.one_le_div_iff (by norm_num)).mpr (Nat.le_of_not_lt hlt)
        omega
      have hd : Nat.digits 10 n = n % 10 :: Nat.digits 10 (n / 10) :=
        Nat.digits_def' (by norm_num) (Nat.pos_of_ne_zero hn0)
      simp [decStr, hn0, hdiv0, decDigits, hd]

theorem natStr_data (n : Nat) : (natStr n).data = decStr n := by
  have h : n < 10 ^ (n + 1) := by
    calc n < 10 ^ n := Nat.lt_pow_self (by norm_num) n
    _ ≤ 10 ^ (n + 1) := Nat.pow_le_pow_right (by norm_num) (Nat.le_succ n)
  exact natStrAux_eq_decStr n n h

theorem decStr_mem_isDigit (n : Nat) : ∀ c ∈ decStr n, c.isDigit = true := by
  intro c hc
  by_cases h0 : n = 0
  · subst h0; simp [decStr] at hc; subst hc; decide
  · simp only [decStr, if_neg h0, decDigits, List.mem_reverse, List.mem_map] at hc
    obtain ⟨d, hdmem, hdc⟩ := hc
    have hd10 : d < 10 := Nat.digits_lt_base (by norm_num) hdmem
    exact hdc ▸ digitChar_isDigit d hd10

theorem map_digitChar_inj {l m : List Nat} (hl : ∀ d ∈ l, d < 10) (hm : ∀ d ∈ m, d < 10)
    (h : l.map Nat.digitChar = m.map Nat.digitChar) : l = m := by
  induction l generalizing m with
  | nil => cases m with
    | nil => rfl
    | cons b bs => simp at h
  | cons a as ih =>
    cases m with
    | nil => simp at h
    | cons b bs =>
      simp only [List.map_cons, List.cons.injEq] at h
      have ha : a < 10 := hl a (by simp)
      have hb : b < 10 := hm b (by simp)
      have hab : a = b := digitChar_inj_below_ten a ha b hb h.1
      have htail : as = bs := ih (fun d hd => hl d (by simp [hd]))
        (fun d hd => hm d (by simp [hd])) h.2
      rw [hab, htail]

theorem decStr_inj {m n : Nat} (h : decStr m = decStr n) : m = n := by
  have key : ∀ k : Nat, k ≠ 0 → decDigits k = ['0'] → False := by
    intro k hk hdd
    have hmap : (Nat.digits 10 k).map Nat.digitChar = ['0'] := by
      have := congrArg List.reverse hdd
      simpa [decDigits] using this
    cases hdig : Nat.digits 10 k with
    | nil => rw [hdig] at hmap; simp at hmap
    | cons d tail =>
      rw [hdig] at hmap
      simp only [List.map_cons, List.cons.injEq] at hmap
      have htail : tail = [] := by
        have := hmap.2
        exact List.map_eq_nil_iff.mp this
      have hd10 : d < 10 := by
        have hdm : d ∈ Nat.digits 10 k := by rw [hdig]; simp
        exact Nat.digits_lt_base (by norm_num) hdm
      have hdz : d = 0 := digitChar_inj_below_ten d hd10 0 (by norm_num) (by simpa using hmap.1)
      have hkz : k = 0 := by
        have hof := Nat.ofDigits_digits 10 k
        rw [hdig, htail, hdz] at hof
        simpa [Nat.ofDigits] using hof.symm
      exact hk hkz
  by_cases hm : m = 0 <;> by_cases hn : n = 0
  · omega
  · exfalso
    rw [hm] at h
    simp only [decStr, if_pos rfl, if_neg hn] at h
    exact key n hn h.symm
  · exfalso
    rw [hn] at h
    simp only [decStr, if_neg hm, if_pos rfl] at h
    exact key m hm h
  · simp only [decStr, if_neg hm, if_neg hn, decDigits] at h
    have h2 : (Nat.digits 10 m).map Nat.digitChar = (Nat.digits 10 n).map Nat.digitChar :=
      List.reverse_injective h
    have hdm : ∀ d ∈ Nat.digits 10 m, d < 10 := fun d hd => Nat.digits_lt_base (by norm_num) hd
    have hdn : ∀ d ∈ Nat.digits 10 n, d < 10 := fun d hd => Nat.digits_lt_base (by norm_num) hd
    have hdig : Nat.digits 10 m = Nat.digits 10 n := map_digitChar_inj hdm hdn h2
    have := congrArg (Nat.ofDigits 10) hdig
    rwa [Nat.ofDigits_digits, Nat.ofDigits_digits] at this

theorem natStr_inj {m n : Nat} (h : natStr m = natStr n) : m = n :=
  decStr_inj (by rw [← natStr_data, ← natStr_data, h])

/-! ## PathCodec: FlatKey escaping

`templatizeAttr` and `restoreAttr` both compute
`propKey.replace(/_/gi, "__").replace(/\./gi, "_")` (index.js lines 110 and
129).  The two regex passes are modelled character-wise on `List Char`. -/

/-- First pass: `replace(/_/gi, "__")` — every underscore is doubled. -/
def dblUnderscore : List Char → List Char
  | [] => []
  | c :: rest =>
    if c = '_' then '_' :: '_' :: dblUnderscore rest else c :: dblUnderscore rest

/-- Second pass: `replace(/\./gi, "_")` — every dot becomes one underscore. -/
def dotToUnderscore : List Char → List Char
  | [] => []
  | c :: rest => (if c = '.' then '_' else c) :: dotToUnderscore rest

def escCore (s : List Char) : List Char := dotToUnderscore (dblUnderscore s)

/-- The `_attrKey` computation of index.js lines 110 and 129. -/
def escapeAttrKey (s : String) : String := String.mk (escCore s.data)

/-- Attribute paths as lodash sees them: a list of segment names, joined by
dots to form the `propKey` string that is escaped into a FlatKey. -/
def joinDots : List String → String
  | [] => ""
  | [s] => s
  | s :: rest => s ++ "." ++ joinDots rest

def flatKeyOfPath (p : List String) : String := escapeAttrKey (joinDots p)

theorem dblUnderscore_append (a b : List Char) :
    dblUnderscore (a ++ b) = dblUnderscore a ++ dblUnderscore b := by
  induction a with
  | nil => rfl
  | cons c rest ih =>
    by_cases h : c = '_' <;> simp [dblUnderscore, h, ih]

theorem dotToUnderscore_append (a b : List Char) :
    dotToUnderscore (a ++ b) = dotToUnderscore a ++ dotToUnderscore b := by
  induction a with
  | nil => rfl
  | cons c rest ih => simp [dotToUnderscore, ih]

theorem dotToUnderscore_of_no_dot (s : List Char) (h : '.' ∉ s) : dotToUnderscore s = s := by
  induction s with
  | nil => rfl
  | cons c rest ih =>
    have hc : c ≠ '.' := fun he => h (by simp [he])
    simp only [dotToUnderscore, if_neg hc, List.cons.injEq, true_and]
    exact ih (fun hm => h (by simp [hm]))

theorem dblUnderscore_no_dot (s : List Char) (h : '.' ∉ s) : '.' ∉ dblUnderscore s := by
  induction s with
  | nil => simp [dblUnderscore]
  | cons c rest ih =>
    have hc : c ≠ '.' := fun he => h (by simp [he])
    have hrest : '.' ∉ rest := fun hm => h (by simp [hm])
    by_cases hu : c = '_'
    · simp only [dblUnderscore, if_pos hu, List.mem_cons]
      push_neg
      exact ⟨by decide, by decide, ih hrest⟩
    · simp only [dblUnderscore, if_neg hu, List.mem_cons]
      push_neg
      exact ⟨fun he => hc he.symm, ih hrest⟩

/-! ## Injectivity analysis of the FlatKey escaping

The escaping collides on segment names that contain dots or start with an
underscore (`C1_flatKey_collision` below).  For paths whose segments are
nonempty, dot-free and do not start with an underscore, the escaping is
injective; this is proved through the greedy decoder `splitFlat`, which is
a left inverse of the escaping on such paths. -/

/-- A path segment on which the escaping is collision-free: nonempty,
without literal dots, and not starting with an underscore. -/
def ValidSeg (s : List Char) : Prop := s ≠ [] ∧ '.' ∉ s ∧ s.head? ≠ some '_'

instance (s : List Char) : Decidable (ValidSeg s) := by
  unfold ValidSeg; infer_instance

/-- Char-level version of `joinDots`. -/
def joinCore : List (List Char) → List Char
  | [] => []
  | [s] => s
  | s :: rest => s ++ '.' :: joinCore rest

/-- Join of already-escaped segments with the single-underscore separator. -/
def joinU : List (List Char) → List Char
  | [] => []
  | [s] => s
  | s :: rest => s ++ '_' :: joinU rest

theorem dblUnderscore_cons_dot (t : List Char) :
    dblUnderscore ('.' :: t) = '.' :: dblUnderscore t := by
  simp [dblUnderscore]

/-- On a dotted join of dot-free segments, the two replace passes amount to
escaping each segment and joining with a single underscore. -/
theorem escCore_joinCore : ∀ p : List (List Char), (∀ s ∈ p, '.' ∉ s) →
    escCore (joinCore p) = joinU (p.map dblUnderscore) := by
  intro p
  induction p with
  | nil => intro _; rfl
  | cons s rest ih =>
    intro hval
    cases rest with
    | nil =>
      have hs : '.' ∉ s := hval s (by simp)
      simp only [joinCore, List.map_cons, List.map_nil, joinU, escCore]
      exact dotToUnderscore_of_no_dot _ (dblUnderscore_no_dot s hs)
    | cons s2 rest2 =>
      have hs : '.' ∉ s := hval s (by simp)
      have hrest : ∀ x ∈ s2 :: rest2, '.' ∉ x := fun x hx => hval x (by simp [hx])
      have hjoin : joinCore (s :: s2 :: rest2) = s ++ '.' :: joinCore (s2 :: rest2) := rfl
      rw [hjoin]
      have h1 : dblUnderscore (s ++ '.' :: joinCore (s2 :: rest2)) =
          dblUnderscore s ++ '.' :: dblUnderscore (joinCore (s2 :: rest2)) := by
        rw [dblUnderscore_append, dblUnderscore_cons_dot]
      unfold escCore
      rw [h1, dotToUnderscore_append]
      have h2 : dotToUnderscore (dblUnderscore s) = dblUnderscore s :=
        dotToUnderscore_of_no_dot _ (dblUnderscore_no_dot s hs)
      have h3 : dotToUnderscore ('.' :: dblUnderscore (joinCore (s2 :: rest2))) =
          '_' :: dotToUnderscore (dblUnderscore (joinCore (s2 :: rest2))) := by
        simp [dotToUnderscore]
      rw [h2, h3]
      have h4 : dotToUnderscore (dblUnderscore (joinCore (s2 :: rest2))) =
          joinU ((s2 :: rest2).map dblUnderscore) := ih hrest
      rw [h4]
      rfl

/-- Greedy decoder for FlatKeys: pairs of underscores are unescaped to one
underscore, isolated underscores split segments. -/
def splitFlat : List Char → List Char → List (List Char)
  | acc, [] => [acc.reverse]
  | acc, c :: rest =>
    if c = '_' then
      match rest with
      | [] => acc.reverse :: [[]]
      | c2 :: rest2 =>
        if c2 = '_' then splitFlat ('_' :: acc) rest2
        else acc.reverse :: splitFlat [] (c2 :: rest2)
    else splitFlat (c :: acc) rest

theorem splitFlat_nil (acc : List Char) : splitFlat acc [] = [acc.reverse] := rfl

theorem splitFlat_ord (acc : List Char) (c : Char) (rest : List Char) (h : c ≠ '_') :
    splitFlat acc (c :: rest) = splitFlat (c :: acc) rest := by
  rw [splitFlat.eq_def]
  simp [h]

theorem splitFlat_pair (acc rest : List Char) :
    splitFlat acc ('_' :: '_' :: rest) = splitFlat ('_' :: acc) rest := rfl

theorem splitFlat_sep (acc : List Char) (c : Char) (rest : List Char) (h : c ≠ '_') :
    splitFlat acc ('_' :: c :: rest) = acc.reverse :: splitFlat [] (c :: rest) := by
  simp [splitFlat, h]

/-- Decoding an escaped segment consumes it entirely. -/
theorem splitFlat_dbl : ∀ seg acc : List Char,
    splitFlat acc (dblUnderscore seg) = [acc.reverse ++ seg] := by
  intro seg
  induction seg with
  | nil => intro acc; simp [dblUnderscore, splitFlat_nil]
  | cons c rest ih =>
    intro acc
    by_cases hu : c = '_'
    · subst hu
      have : dblUnderscore ('_' :: rest) = '_' :: '_' :: dblUnderscore rest := by
        simp [dblUnderscore]
      rw [this, splitFlat_pair, ih]
      simp
    · have : dblUnderscore (c :: rest) = c :: dblUnderscore rest := by
        simp [dblUnderscore, hu]
      rw [this, splitFlat_ord _ _ _ hu, ih]
      simp

/-- Decoding an escaped segment followed by a separator and a continuation
that does not start with an underscore emits the segment and proceeds. -/
theorem splitFlat_dbl_sep : ∀ seg acc u : List Char, u ≠ [] → u.head? ≠ some '_' →
    splitFlat acc (dblUnderscore seg ++ '_' :: u) = (acc.reverse ++ seg) :: splitFlat [] u := by
  intro seg
  induction seg with
  | nil =>
    intro acc u hne hhead
    cases u with
    | nil => exact absurd rfl hne
    | cons c2 rest2 =>
      have hc2 : c2 ≠ '_' := by
        intro he; apply hhead; simp [he]
      simp only [dblUnderscore, List.nil_append]
      rw [splitFlat_sep _ _ _ hc2]
      simp
  | cons c rest ih =>
    intro acc u hne hhead
    by_cases hu : c = '_'
    · subst hu
      have : dblUnderscore ('_' :: rest) ++ '_' :: u =
          '_' :: '_' :: (dblUnderscore rest ++ '_' :: u) := by
        simp [dblUnderscore]
      rw [this, splitFlat_pair, ih _ _ hne hhead]
      simp
    · have : dblUnderscore (c :: rest) ++ '_' :: u =
          c :: (dblUnderscore rest ++ '_' :: u) := by
        simp [dblUnderscore, hu]
      rw [this, splitFlat_ord _ _ _ hu, ih _ _ hne hhead]
      simp

theorem dblUnderscore_valid_head (s : List Char) (hs : ValidSeg s) :
    dblUnderscore s ≠ [] ∧ (dblUnderscore s).head? ≠ some '_' := by
  obtain ⟨hne, _, hhead⟩ := hs
  cases s with
  | nil => exact absurd rfl hne
  | cons c rest =>
    have hc : c ≠ '_' := by
      intro he; apply hhead; simp [he]
    have : dblUnderscore (c :: rest) = c :: dblUnderscore rest := by
      simp [dblUnderscore, hc]
    rw [this]
    exact ⟨by simp, by simp [hc]⟩

theorem joinU_head (x : List Char) (xs : List (List Char)) (hx : x ≠ []) :
    joinU (x :: xs) ≠ [] ∧ (joinU (x :: xs)).head? = x.head? := by
  cases xs with
  | nil => exact ⟨hx, rfl⟩
  | cons y ys =>
    have : joinU (x :: y :: ys) = x ++ '_' :: joinU (y :: ys) := rfl
    rw [this]
    cases x with
    | nil => exact absurd rfl hx
    | cons c t => exact ⟨by simp, by simp⟩

/-- The greedy decoder is a left inverse of the escaping on valid paths. -/
theorem splitFlat_joinU : ∀ p : List (List Char), (∀ s ∈ p, ValidSeg s) → p ≠ [] →
    splitFlat [] (joinU (p.map dblUnderscore)) = p := by
  intro p
  induction p with
  | nil => intro _ hne; exact absurd rfl hne
  | cons s rest ih =>
    intro hval _
    cases rest with
    | nil =>
      have : joinU ([s].map dblUnderscore) = dblUnderscore s := rfl
      rw [this, splitFlat_dbl]
      simp
    | cons s2 rest2 =>
      have hs2 : ValidSeg s2 := hval s2 (by simp)
      have hd2 := dblUnderscore_valid_head s2 hs2
      have hj := joinU_head (dblUnderscore s2) (rest2.map dblUnderscore) hd2.1
      have hne : joinU ((s2 :: rest2).map dblUnderscore) ≠ [] := by
        simpa using hj.1
      have hhead : (joinU ((s2 :: rest2).map dblUnderscore)).head? ≠ some '_' := by
        simp only [List.map_cons]
        rw [hj.2]
        exact hd2.2
      have hexp : joinU ((s :: s2 :: rest2).map dblUnderscore) =
          dblUnderscore s ++ '_' :: joinU ((s2 :: rest2).map dblUnderscore) := rfl
      rw [hexp, splitFlat_dbl_sep s [] _ hne hhead]
      have htail := ih (fun x hx => hval x (by simp [hx])) (by simp)
      rw [htail]
      simp

theorem dotToUnderscore_length (s : List Char) : (dotToUnderscore s).length = s.length := by
  induction s with
  | nil => rfl
  | cons c rest ih => simp [dotToUnderscore, ih]

theorem flatCore_ne_nil (p : List (List Char)) (hval : ∀ s ∈ p, ValidSeg s) (hne : p ≠ []) :
    escCore (joinCore p) ≠ [] := by
  cases p with
  | nil => exact absurd rfl hne
  | cons s rest =>
    have hs : ValidSeg s := hval s (by simp)
    obtain ⟨hsne, _, _⟩ := hs
    intro hcontra
    have hlen := congrArg List.length hcontra
    rw [escCore, dotToUnderscore_length] at hlen
    have hjoin_ne : joinCore (s :: rest) ≠ [] := by
      cases rest with
      | nil => exact hsne
      | cons y ys =>
        have : joinCore (s :: y :: ys) = s ++ '.' :: joinCore (y :: ys) := rfl
        rw [this]
        simp [hsne]
    have hdbl_ne : dblUnderscore (joinCore (s :: rest)) ≠ [] := by
      cases hj : joinCore (s :: rest) with
      | nil => exact absurd hj hjoin_ne
      | cons c t =>
        by_cases hu : c = '_' <;> simp [dblUnderscore, hu]
    exact hdbl_ne (List.eq_nil_of_length_eq_zero (by simpa using hlen))

/-- Core injectivity: on valid paths, the two-pass escaping of the dotted
join is injective. -/
theorem flatCore_inj (p q : List (List Char))
    (hp : ∀ s ∈ p, ValidSeg s) (hq : ∀ s ∈ q, ValidSeg s)
    (h : escCore (joinCore p) = escCore (joinCore q)) : p = q := by
  by_cases hpe : p = []
  · by_cases hqe : q = []
    · rw [hpe, hqe]
    · exfalso
      apply flatCore_ne_nil q hq hqe
      rw [← h, hpe]
      rfl
  · by_cases hqe : q = []
    · exfalso
      apply flatCore_ne_nil p hp hpe
      rw [h, hqe]
      rfl
    · have hdotp : ∀ s ∈ p, '.' ∉ s := fun s hs => (hp s hs).2.1
      have hdotq : ∀ s ∈ q, '.' ∉ s := fun s hs => (hq s hs).2.1
      rw [escCore_joinCore p hdotp, escCore_joinCore q hdotq] at h
      calc p = splitFlat [] (joinU (p.map dblUnderscore)) := (splitFlat_joinU p hp hpe).symm
      _ = splitFlat [] (joinU (q.map dblUnderscore)) := by rw [h]
      _ = q := splitFlat_joinU q hq hqe

theorem joinDots_data : ∀ p : List String, (joinDots p).data = joinCore (p.map String.data) := by
  intro p
  induction p with
  | nil => rfl
  | cons s rest ih =>
    cases rest with
    | nil => rfl
    | cons s2 rest2 =>
      have h1 : joinDots (s :: s2 :: rest2) = s ++ "." ++ joinDots (s2 :: rest2) := rfl
      have h2 : joinCore ((s :: s2 :: rest2).map String.data) =
          s.data ++ '.' :: joinCore ((s2 :: rest2).map String.data) := rfl
      rw [h1, h2, String.data_append, String.data_append, ← ih]
      simp

/-- C1 — counterexample.  The FlatKey escaping is not injective over paths
whose segment names contain literal underscores and dots: the two distinct
attribute paths `a_ . b` and `a . _b` produce the same FlatKey `a___b`. -/
theorem C1_flatKey_collision :
    flatKeyOfPath ["a_", "b"] = flatKeyOfPath ["a", "_b"] ∧
    (["a_", "b"] : List String) ≠ ["a", "_b"] := by
  constructor
  · rfl
  · decide

/-- C1 — amended.  The FlatKey escaping (doubling every literal underscore,
then rewriting every separator dot to a single underscore) is injective over
paths whose segment names are nonempty, contain no literal dots, and do not
start with an underscore: for every pair of distinct such paths the two
paths produce distinct FlatKeys. -/
theorem C1_flatKey_injective_amended (p q : List String)
    (hp : ∀ s ∈ p, ValidSeg s.data) (hq : ∀ s ∈ q, ValidSeg s.data)
    (h : flatKeyOfPath p = flatKeyOfPath q) : p = q := by
  have hdata : escCore (joinDots p).data = escCore (joinDots q).data := by
    have := congrArg String.data h
    simpa [flatKeyOfPath, escapeAttrKey] using this
  rw [joinDots_data, joinDots_data] at hdata
  have hp2 : ∀ s ∈ p.map String.data, ValidSeg s := by
    intro s hs
    obtain ⟨t, ht, rfl⟩ := List.mem_map.mp hs
    exact hp t ht
  have hq2 : ∀ s ∈ q.map String.data, ValidSeg s := by
    intro s hs
    obtain ⟨t, ht, rfl⟩ := List.mem_map.mp hs
    exact hq t ht
  have hmaps := flatCore_inj _ _ hp2 hq2 hdata
  have hinj : Function.Injective String.data := by
    intro a b hab
    cases a; cases b; simpa using congrArg String.mk hab
  exact List.map_injective_iff.mpr hinj hmaps

/-- Witness for `C1_flatKey_injective_amended` at the concrete path
`["a", "foo_bar"]` (the shape exercised by the repository's own test on
overlapping underscore names). -/
theorem C1_flatKey_injective_amended_witness :
    (∀ s ∈ (["a", "foo_bar"] : List String), ValidSeg s.data) ∧
    (["a", "foo_bar"] : List String) = ["a", "foo_bar"] :=
  ⟨by decide, C1_flatKey_injective_amended _ _ (by decide) (by decide) rfl⟩

/-! ## JavaScript value trees

Mutually inductive so that all model functions are structurally recursive
(hence computable by kernel reduction).  `JFields` models a plain object's
own enumerable properties in insertion order; `JElems` models an array. -/

mutual
inductive JValue where
  | str (s : String)
  | num (n : Int)
  | bool (b : Bool)
  | jnull
  | undef
  | obj (fields : JFields)
  | arr (elems : JElems)
inductive JFields where
  | nil
  | cons (key : String) (val : JValue) (rest : JFields)
inductive JElems where
  | nil
  | cons (head : JValue) (rest : JElems)
end

mutual
def jvBeq : JValue → JValue → Bool
  | .str a, .str b => a = b
  | .num a, .num b => a = b
  | .bool a, .bool b => a = b
  | .jnull, .jnull => true
  | .undef, .undef => true
  | .obj a, .obj b => jfBeq a b
  | .arr a, .arr b => jeBeq a b
  | _, _ => false
def jfBeq : JFields → JFields → Bool
  | .nil, .nil => true
  | .cons k v r, .cons k2 v2 r2 => k = k2 && jvBeq v v2 && jfBeq r r2
  | _, _ => false
def jeBeq : JElems → JElems → Bool
  | .nil, .nil => true
  | .cons v r, .cons v2 r2 => jvBeq v v2 && jeBeq r r2
  | _, _ => false
end

mutual
theorem jvBeq_sound : ∀ a b, jvBeq a b = true → a = b
  | .str a, b => by cases b <;> simp [jvBeq]
  | .num a, b => by cases b <;> simp [jvBeq]
  | .bool a, b => by cases b <;> simp [jvBeq]
  | .jnull, b => by cases b <;> simp [jvBeq]
  | .undef, b => by cases b <;> simp [jvBeq]
  | .obj a, b => by
      cases b <;> intro h <;> simp [jvBeq] at h ⊢
      exact jfBeq_sound a _ h
  | .arr a, b => by
      cases b <;> intro h <;> simp [jvBeq] at h ⊢
      exact jeBeq_sound a _ h
theorem jfBeq_sound : ∀ a b, jfBeq a b = true → a = b
  | .nil, b => by cases b <;> simp [jfBeq]
  | .cons k v r, b => by
      cases b with
      | nil => simp [jfBeq]
      | cons k2 v2 r2 =>
        intro h
        simp only [jfBeq, Bool.and_eq_true, decide_eq_true_eq] at h
        obtain ⟨⟨hk, hv⟩, hr⟩ := h
        rw [hk, jvBeq_sound v v2 hv, jfBeq_sound r r2 hr]
theorem jeBeq_sound : ∀ a b, jeBeq a b = true → a = b
  | .nil, b => by cases b <;> simp [jeBeq]
  | .cons v r, b => by
      cases b with
      | nil => simp [jeBeq]
      | cons v2 r2 =>
        intro h
        simp only [jeBeq, Bool.and_eq_true] at h
        rw [jvBeq_sound v v2 h.1, jeBeq_sound r r2 h.2]
end

mutual
theorem jvBeq_refl : ∀ a, jvBeq a a = true
  | .str a => by simp [jvBeq]
  | .num a => by simp [jvBeq]
  | .bool a => by simp [jvBeq]
  | .jnull => by simp [jvBeq]
  | .undef => by simp [jvBeq]
  | .obj a => by simp [jvBeq, jfBeq_refl a]
  | .arr a => by simp [jvBeq, jeBeq_refl a]
theorem jfBeq_refl : ∀ a, jfBeq a a = true
  | .nil => by simp [jfBeq]
  | .cons k v r => by simp [jfBeq, jvBeq_refl v, jfBeq_refl r]
theorem jeBeq_refl : ∀ a, jeBeq a a = true
  | .nil => by simp [jeBeq]
  | .cons v r => by simp [jeBeq, jvBeq_refl v, jeBeq_refl r]
end

instance : DecidableEq JValue := fun a b =>
  if h : jvBeq a b = true then isTrue (jvBeq_sound a b h)
  else isFalse (fun he => h (he ▸ jvBeq_refl a))

instance : DecidableEq JFields := fun a b =>
  if h : jfBeq a b = true then isTrue (jfBeq_sound a b h)
  else isFalse (fun he => h (he ▸ jfBeq_refl a))

instance : DecidableEq JElems := fun a b =>
  if h : jeBeq a b = true then isTrue (jeBeq_sound a b h)
  else isFalse (fun he => h (he ▸ jeBeq_refl a))

/-! ## Basic object/array operations -/

def elemsLen : JElems → Nat
  | .nil => 0
  | .cons _ r => elemsLen r + 1

def getField : JFields → String → Option JValue
  | .nil, _ => none
  | .cons k v r, key => if k = key then some v else getField r key

/-- Property assignment: replaces in place when the key exists, otherwise
appends (JS adds new string keys at the end of the insertion order). -/
def setField : JFields → String → JValue → JFields
  | .nil, key, v => .cons key v .nil
  | .cons k w r, key, v =>
    if k = key then .cons k v r else .cons k w (setField r key v)

def getIdx : JElems → Nat → Option JValue
  | .nil, _ => none
  | .cons v _, 0 => some v
  | .cons _ r, n + 1 => getIdx r n

/-- Index assignment; writing past the end pads with `undefined`, matching
reads from the sparse array lodash produces. -/
def setIdx : JElems → Nat → JValue → JElems
  | .nil, 0, v => .cons v .nil
  | .nil, n + 1, v => .cons .undef (setIdx .nil n v)
  | .cons _ r, 0, v => .cons v r
  | .cons w r, n + 1, v => .cons w (setIdx r n v)

/-- Decimal value of a digit list (most significant first). -/
def digitsToNat (l : List Char) : Nat := l.foldl (fun a c => a * 10 + (c.toNat - 48)) 0

/-- Uint-like path segment as lodash's `isIndex` recognizes it
(`/^(?:0|[1-9]\d*)$/`, no leading zeros). -/
def isIndexSeg (s : String) : Bool :=
  match s.data with
  | [] => false
  | [c] => c.isDigit
  | c :: rest => c.isDigit && c ≠ '0' && rest.all Char.isDigit

def segToNat? (s : String) : Option Nat :=
  if isIndexSeg s then some (digitsToNat s.data) else none

/-- Path parsing for the dotted attribute paths the configuration uses
(e.g. `"data.text"`); bracket syntax is not used by the repository. -/
def splitSegsAux : List Char → List Char → List String
  | acc, [] => [String.mk acc.reverse]
  | acc, c :: rest =>
    if c = '.' then String.mk acc.reverse :: splitSegsAux [] rest
    else splitSegsAux (c :: acc) rest

def splitPath (s : String) : List String := splitSegsAux [] s.data

/-- Model of lodash `get`: walks the path, yielding `undefined` for any
missing step (index.js reads props via `get(curEl.props, attrKey)`). -/
def jget : JValue → List String → JValue
  | v, [] => v
  | .obj fs, k :: rest => jget ((getField fs k).getD .undef) rest
  | .arr es, k :: rest =>
    match segToNat? k with
    | some i => jget ((getIdx es i).getD .undef) rest
    | none => jget .undef rest
  | _, _ :: rest => jget .undef rest

/-- Model of lodash `set`: walks the path, creating missing intermediate
objects/arrays (array when the next segment is an index word).  Named
properties on arrays are outside the modelled value space and leave the
array unchanged. -/
def jset : JValue → List String → JValue → JValue
  | _, [], v => v
  | .obj fs, k :: rest, v =>
    .obj (setField fs k (jset ((getField fs k).getD .undef) rest v))
  | .arr es, k :: rest, v =>
    match segToNat? k with
    | some i => .arr (setIdx es i (jset ((getIdx es i).getD .undef) rest v))
    | none => .arr es
  | _, k :: rest, v =>
    match segToNat? k with
    | some i => .arr (setIdx .nil i (jset .undef rest v))
    | none => .obj (.cons k (jset .undef rest v) .nil)

/-- Whether every step of the path exists in the tree (so that `jset` only
replaces existing values and `jget` reads what `jset` wrote). -/
def hasPath : JValue → List String → Bool
  | _, [] => true
  | .obj fs, k :: rest =>
    match getField fs k with
    | some v => hasPath v rest
    | none => false
  | .arr es, k :: rest =>
    match segToNat? k with
    | some i =>
      match getIdx es i with
      | some v => hasPath v rest
      | none => false
    | none => false
  | _, _ :: _ => false

/-! ## JS string coercion and React text escaping -/

mutual
/-- JS string coercion `"" + v` (template literals, key concatenation). -/
def jsToString : JValue → String
  | .str s => s
  | .num n => intStr n
  | .bool b => if b then "true" else "false"
  | .jnull => "null"
  | .undef => "undefined"
  | .obj _ => "[object Object]"
  | .arr es => jsArrJoin es
/-- `Array.prototype.toString`: comma join, null/undefined elements empty. -/
def jsArrJoin : JElems → String
  | .nil => ""
  | .cons v rest =>
    let s := match v with
      | .jnull => ""
      | .undef => ""
      | w => jsToString w
    match rest with
    | .nil => s
    | .cons _ _ => s ++ "," ++ jsArrJoin rest
end

def escHtmlChar (c : Char) : List Char :=
  if c = '&' then "&amp;".data
  else if c = '>' then "&gt;".data
  else if c = '<' then "&lt;".data
  else if c = Char.ofNat 34 then "&quot;".data
  else if c = Char.ofNat 39 then "&#x27;".data
  else [c]

def escHtmlCore : List Char → List Char
  | [] => []
  | c :: rest => escHtmlChar c ++ escHtmlCore rest

def escapeHtmlString (s : String) : String := String.mk (escHtmlCore s.data)

/-- Model of react-dom's `escapeTextContentForBrowser`: coerce to string,
then escape the five markup-significant characters.  (The number/boolean
shortcut in the React source returns `"" + text` unescaped; that is
equivalent because decimal and boolean strings contain none of the five
characters.) -/
def escapeTextContentForBrowser (v : JValue) : String := escapeHtmlString (jsToString v)

/-! ## Structural shape of a value (scalar leaves erased) -/

mutual
def sameShape : JValue → JValue → Bool
  | .obj a, .obj b => sameShapeF a b
  | .arr a, .arr b => sameShapeE a b
  | .obj _, _ => false
  | _, .obj _ => false
  | .arr _, _ => false
  | _, .arr _ => false
  | _, _ => true
def sameShapeF : JFields → JFields → Bool
  | .nil, .nil => true
  | .cons k v r, .cons k2 v2 r2 => k = k2 && sameShape v v2 && sameShapeF r r2
  | _, _ => false
def sameShapeE : JElems → JElems → Bool
  | .nil, .nil => true
  | .cons v r, .cons v2 r2 => sameShape v v2 && sameShapeE r r2
  | _, _ => false
end

/-! ## templatizeAttr / restoreAttr (index.js lines 98-133)

The JS functions mutate `origProps` through lodash `set` at bracket paths
and assign into `lookupPropTable`; the model passes the rebuilt subtree and
the table explicitly.  The table is consed at the front, so `List.lookup`
returns the most recent assignment, matching JS property overwrite. -/

mutual
/-- index.js lines 115-133.  Returns the subtree with every scalar leaf
replaced by its substitution token, the extended lookup table, and the
array-shape accumulator with this subtree's `propKey_length` pushes. -/
def templatizeAttr (propKey : String) (propValue : JValue)
    (table : List (String × String)) (addl : List String) :
    JValue × List (String × String) × List String :=
  match propValue with
  | .obj fs =>
    let r := templatizeFields propKey fs table addl
    (.obj r.1, r.2)
  | .arr es =>
    let r := templatizeElems propKey 0 es table
      (addl ++ [propKey ++ "_" ++ natStr (elemsLen es)])
    (.arr r.1, r.2)
  | v =>
    let ak := escapeAttrKey propKey
    (.str ("$\x7b" ++ ak ++ "\x7d"), (ak, escapeTextContentForBrowser v) :: table, addl)
def templatizeFields (propKey : String) (fs : JFields)
    (table : List (String × String)) (addl : List String) :
    JFields × List (String × String) × List String :=
  match fs with
  | .nil => (.nil, table, addl)
  | .cons k v rest =>
    let r := templatizeAttr (propKey ++ "." ++ k) v table addl
    let r2 := templatizeFields propKey rest r.2.1 r.2.2
    (.cons k r.1 r2.1, r2.2)
def templatizeElems (propKey : String) (i : Nat) (es : JElems)
    (table : List (String × String)) (addl : List String) :
    JElems × List (String × String) × List String :=
  match es with
  | .nil => (.nil, table, addl)
  | .cons v rest =>
    let r := templatizeAttr (propKey ++ "." ++ natStr i) v table addl
    let r2 := templatizeElems propKey (i + 1) rest r.2.1 r.2.2
    (.cons r.1 r2.1, r2.2)
end

mutual
/-- index.js lines 98-113.  Walks the (already templatized) subtree and
writes the looked-up table value at every scalar position; a missing key
writes `undefined` (JS indexing into a missing property). -/
def restoreAttr (propKey : String) (propValue : JValue)
    (table : List (String × String)) : JValue :=
  match propValue with
  | .obj fs => .obj (restoreFields propKey fs table)
  | .arr es => .arr (restoreElems propKey 0 es table)
  | _ =>
    match List.lookup (escapeAttrKey propKey) table with
    | some s => .str s
    | none => .undef
def restoreFields (propKey : String) (fs : JFields)
    (table : List (String × String)) : JFields :=
  match fs with
  | .nil => .nil
  | .cons k v rest =>
    .cons k (restoreAttr (propKey ++ "." ++ k) v table) (restoreFields propKey rest table)
def restoreElems (propKey : String) (i : Nat) (es : JElems)
    (table : List (String × String)) : JElems :=
  match es with
  | .nil => .nil
  | .cons v rest =>
    .cons (restoreAttr (propKey ++ "." ++ natStr i) v table) (restoreElems propKey (i + 1) rest table)
end

/-! ## Specification-side traversal summaries -/

mutual
/-- FlatKey/escaped-value pairs of every scalar leaf, in traversal order. -/
def leafEntries (propKey : String) : JValue → List (String × String)
  | .obj fs => leafEntriesF propKey fs
  | .arr es => leafEntriesE propKey 0 es
  | v => [(escapeAttrKey propKey, escapeTextContentForBrowser v)]
def leafEntriesF (propKey : String) : JFields → List (String × String)
  | .nil => []
  | .cons k v rest => leafEntries (propKey ++ "." ++ k) v ++ leafEntriesF propKey rest
def leafEntriesE (propKey : String) (i : Nat) : JElems → List (String × String)
  | .nil => []
  | .cons v rest => leafEntries (propKey ++ "." ++ natStr i) v ++ leafEntriesE propKey (i + 1) rest
end

mutual
/-- Array-shape fingerprint entries (`propKey_length`), in traversal order. -/
def arrEntries (propKey : String) : JValue → List String
  | .obj fs => arrEntriesF propKey fs
  | .arr es => (propKey ++ "_" ++ natStr (elemsLen es)) :: arrEntriesE propKey 0 es
  | _ => []
def arrEntriesF (propKey : String) : JFields → List String
  | .nil => []
  | .cons k v rest => arrEntries (propKey ++ "." ++ k) v ++ arrEntriesF propKey rest
def arrEntriesE (propKey : String) (i : Nat) : JElems → List String
  | .nil => []
  | .cons v rest => arrEntries (propKey ++ "." ++ natStr i) v ++ arrEntriesE propKey (i + 1) rest
end

mutual
/-- The subtree with every scalar leaf replaced by its placeholder token. -/
def phVal (propKey : String) : JValue → JValue
  | .obj fs => .obj (phValF propKey fs)
  | .arr es => .arr (phValE propKey 0 es)
  | _ => .str ("$\x7b" ++ escapeAttrKey propKey ++ "\x7d")
def phValF (propKey : String) : JFields → JFields
  | .nil => .nil
  | .cons k v rest => .cons k (phVal (propKey ++ "." ++ k) v) (phValF propKey rest)
def phValE (propKey : String) (i : Nat) : JElems → JElems
  | .nil => .nil
  | .cons v rest => .cons (phVal (propKey ++ "." ++ natStr i) v) (phValE propKey (i + 1) rest)
end

mutual
/-- The subtree with every scalar leaf replaced by the browser-escaped
string of its value — what a hit/miss restore writes back into the props. -/
def escLeaves : JValue → JValue
  | .obj fs => .obj (escLeavesF fs)
  | .arr es => .arr (escLeavesE es)
  | v => .str (escapeTextContentForBrowser v)
def escLeavesF : JFields → JFields
  | .nil => .nil
  | .cons k v rest => .cons k (escLeaves v) (escLeavesF rest)
def escLeavesE : JElems → JElems
  | .nil => .nil
  | .cons v rest => .cons (escLeaves v) (escLeavesE rest)
end

/-! ## Template compilation and rendering (lodash `template`) -/

def joinComma : List String → String
  | [] => ""
  | [s] => s
  | s :: rest => s ++ "," ++ joinComma rest

def lookupSubst (table : List (String × String)) (key : String) : String :=
  match List.lookup key table with
  | some v => v
  | none => ""

/-- One left-to-right pass replacing each token with its table value (or the
empty string when absent, as lodash renders undefined interpolations).  The
fuel is the input length; each step consumes at least one character. -/
def substAux (table : List (String × String)) : Nat → List Char → List Char
  | 0, l => l
  | _ + 1, [] => []
  | fuel + 1, c :: rest =>
    match rest with
    | [] => [c]
    | c2 :: rest2 =>
      if c = '$' ∧ c2 = Char.ofNat 123 then
        let key := rest2.takeWhile (fun d => d ≠ Char.ofNat 125)
        let rem := rest2.dropWhile (fun d => d ≠ Char.ofNat 125)
        match rem with
        | [] => c :: c2 :: rest2
        | _ :: rem2 => (lookupSubst table (String.mk key)).data ++ substAux table fuel rem2
      else c :: substAux table fuel rest

def substTemplate (table : List (String × String)) (s : String) : String :=
  String.mk (substAux table (s.data.length + 1) s.data)

/-! ## Global string replace (the `data-reactid` rewrite, index.js 189-191) -/

def startsWithL : List Char → List Char → Bool
  | _, [] => true
  | [], _ :: _ => false
  | c :: r, p :: ps => c = p && startsWithL r ps

def replaceAllAux (pat rep : List Char) : Nat → List Char → List Char
  | 0, s => s
  | _ + 1, [] => []
  | fuel + 1, c :: rest =>
    if startsWithL (c :: rest) pat ∧ pat ≠ [] then
      rep ++ replaceAllAux pat rep fuel (List.drop pat.length (c :: rest))
    else c :: replaceAllAux pat rep fuel rest

def jsReplaceAll (s pat rep : String) : String :=
  String.mk (replaceAllAux pat.data rep.data (s.data.length + 1) s.data)

/-! ## Per-render-call state machine (index.js lines 151-227)

The host renderer (`mount`) is an arbitrary function from the props tree to
markup; the store (`lru-cache` or a caller-supplied `cacheImpl`) is an
association list read by `List.lookup` and written by consing, so the most
recent `set` wins.  `queue` models the `process.nextTick` queue: the
wrapped call only appends to it and never invokes the observer itself. -/

inductive GenResult where
  | thrown (msg : String)
  | val (v : JValue)

structure CmpConfig where
  cacheKeyGen : JValue → GenResult
  templateAttrs : List String

/-- index.js lines 29-31: the generator installed when a component has
neither a `cacheKeyGen` nor a non-empty `cacheAttrs`. -/
def defaultCacheKeyFunction : JValue → GenResult := fun _ => .val (.str "_defaultKey")

structure CacheEntry where
  markup : String
  compiled : Option String
  rootId : String
deriving DecidableEq

inductive CacheEventKind where
  | hit
  | miss
deriving DecidableEq

structure CacheEvent where
  event : CacheEventKind
  cmpName : String
deriving DecidableEq

inductive RenderPhase where
  | plain
  | thrown
  | bypassNull
  | hit
  | miss
deriving DecidableEq

instance {e a : Type} [DecidableEq e] [DecidableEq a] : DecidableEq (Except e a) :=
  fun x y =>
    match x, y with
    | .error u, .error v =>
      if h : u = v then isTrue (by rw [h]) else isFalse (by simp [h])
    | .error _, .ok _ => isFalse (by simp)
    | .ok _, .error _ => isFalse (by simp)
    | .ok u, .ok v =>
      if h : u = v then isTrue (by rw [h]) else isFalse (by simp [h])

structure RenderOutcome where
  result : Except String String
  props : JValue
  store : List (String × CacheEntry)
  queue : List CacheEvent
  rendererInvoked : Bool
  storeQueried : Bool
  phase : RenderPhase
deriving DecidableEq

/-- One iteration of the `templateAttrs.forEach` at index.js lines 175-179:
read the attribute, templatize it, write the tokenized subtree back into
the (caller-visible) props tree. -/
def templatizeStep (props : JValue) (table : List (String × String)) (addl : List String)
    (attrKey : String) : JValue × List (String × String) × List String :=
  let value := jget props (splitPath attrKey)
  let r := templatizeAttr ("a." ++ attrKey) value table addl
  (jset props (splitPath attrKey) r.1, r.2)

def templatizeAll : List String → JValue → List (String × String) → List String →
    JValue × List (String × String) × List String
  | [], props, table, addl => (props, table, addl)
  | attrKey :: rest, props, table, addl =>
    let r := templatizeStep props table addl attrKey
    templatizeAll rest r.1 r.2.1 r.2.2

/-- The `templateAttrs.forEach` of index.js lines 136-140: restore each
attribute's leaves from the lookup table into the props tree. -/
def restoreAllProps : List String → JValue → List (String × String) → JValue
  | [], props, _ => props
  | attrKey :: rest, props, table =>
    let value := jget props (splitPath attrKey)
    restoreAllProps rest
      (jset props (splitPath attrKey) (restoreAttr ("a." ++ attrKey) value table)) table

/-- index.js lines 135-142: returns the rendered markup and the restored
props tree. -/
def restorePropsAndProcessTemplate (compiled : String) (templateAttrs : List String)
    (templateAttrValues : List (String × String)) (props : JValue) : String × JValue :=
  (substTemplate templateAttrValues compiled,
   restoreAllProps templateAttrs props templateAttrValues)

/-- The cache key of index.js line 180:
`«cmpName»:«generatedKey»:«addlCacheForArr»` (array coerced to its comma
join). -/
def cacheKeyOf (cfg : CmpConfig) (cmpName : String) (generatedKey : String)
    (props : JValue) : String :=
  cmpName ++ ":" ++ generatedKey ++ ":" ++
    joinComma (templatizeAll cfg.templateAttrs props [] []).2.2

/-- Markup and restored props of the cache-hit branch (index.js lines
182-191): with template attributes the compiled template is re-rendered
against the current call's values, otherwise the stored markup is returned
verbatim. -/
def hitParts (cfg : CmpConfig) (props : JValue) (e : CacheEntry) : String × JValue :=
  if cfg.templateAttrs ≠ [] then
    restorePropsAndProcessTemplate (e.compiled.getD "") cfg.templateAttrs
      (templatizeAll cfg.templateAttrs props [] []).2.1
      (templatizeAll cfg.templateAttrs props [] []).1
  else (e.markup, (templatizeAll cfg.templateAttrs props [] []).1)

/-- Markup and restored props of the cache-miss branch (index.js lines
194-207): the host renderer runs on the templatized props; with template
attributes the fresh markup is immediately re-rendered through the
template. -/
def missParts (cfg : CmpConfig) (props : JValue) (renderFn : JValue → String) :
    String × JValue :=
  if cfg.templateAttrs ≠ [] then
    restorePropsAndProcessTemplate (renderFn (templatizeAll cfg.templateAttrs props [] []).1)
      cfg.templateAttrs (templatizeAll cfg.templateAttrs props [] []).2.1
      (templatizeAll cfg.templateAttrs props [] []).1
  else (renderFn (templatizeAll cfg.templateAttrs props [] []).1,
    (templatizeAll cfg.templateAttrs props [] []).1)

/-- The entry stored on a miss (index.js lines 202-204). -/
def missEntry (cfg : CmpConfig) (props : JValue) (renderFn : JValue → String)
    (rootID : String) : CacheEntry :=
  { markup := renderFn (templatizeAll cfg.templateAttrs props [] []).1,
    compiled := if cfg.templateAttrs ≠ [] then
        some (renderFn (templatizeAll cfg.templateAttrs props [] []).1)
      else none,
    rootId := rootID }

/-- The wrapped `mountComponent` (index.js lines 163-208) for an enabled,
registered component. -/
def mountComponentWrapped (cfg : CmpConfig) (cmpName rootID : String)
    (renderFn : JValue → String) (hasEventCallback : Bool) (props : JValue)
    (store : List (String × CacheEntry)) (queue : List CacheEvent) : RenderOutcome :=
  match cfg.cacheKeyGen props with
  | .thrown msg =>
    { result := .error msg, props := props, store := store, queue := queue,
      rendererInvoked := false, storeQueried := false, phase := .thrown }
  | .val gk =>
    if gk = JValue.jnull then
      { result := .ok (renderFn props), props := props, store := store, queue := queue,
        rendererInvoked := true, storeQueried := false, phase := .bypassNull }
    else
      match List.lookup (cacheKeyOf cfg cmpName (jsToString gk) props) store with
      | some cachedObj =>
        { result := .ok (jsReplaceAll (hitParts cfg props cachedObj).1
            ("data-reactid=\x22" ++ cachedObj.rootId) ("data-reactid=\x22" ++ rootID)),
          props := (hitParts cfg props cachedObj).2, store := store,
          queue := if hasEventCallback then queue ++ [⟨.hit, cmpName⟩] else queue,
          rendererInvoked := false, storeQueried := true, phase := .hit }
      | none =>
        { result := .ok (missParts cfg props renderFn).1,
          props := (missParts cfg props renderFn).2,
          store := (cacheKeyOf cfg cmpName (jsToString gk) props,
            missEntry cfg props renderFn rootID) :: store,
          queue := if hasEventCallback then queue ++ [⟨.miss, cmpName⟩] else queue,
          rendererInvoked := true, storeQueried := true, phase := .miss }

structure GlobalConfig where
  components : List (String × CmpConfig)
  hasEventCallback : Bool
  enabled : Bool

/-- The dispatch around the wrapper: caching disabled or an unregistered
component name leaves `mountComponent` unwrapped (index.js lines 159-161),
so the host renderer runs on the untouched props and the cache and event
queue are never touched. -/
def handle (g : GlobalConfig) (cmpName rootID : String) (renderFn : JValue → String)
    (props : JValue) (store : List (String × CacheEntry)) (queue : List CacheEvent) :
    RenderOutcome :=
  if g.enabled then
    match List.lookup cmpName g.components with
    | some cfg => mountComponentWrapped cfg cmpName rootID renderFn g.hasEventCallback
        props store queue
    | none =>
      { result := .ok (renderFn props), props := props, store := store, queue := queue,
        rendererInvoked := true, storeQueried := false, phase := .plain }
  else
    { result := .ok (renderFn props), props := props, store := store, queue := queue,
      rendererInvoked := true, storeQueried := false, phase := .plain }


/-! ## Scenario rewrite lemmas for the state machine -/

theorem handle_disabled (g : GlobalConfig) (cmpName rootID : String)
    (renderFn : JValue → String) (props : JValue) (store : List (String × CacheEntry))
    (queue : List CacheEvent) (hen : g.enabled = false) :
    handle g cmpName rootID renderFn props store queue =
      { result := .ok (renderFn props), props := props, store := store, queue := queue,
        rendererInvoked := true, storeQueried := false, phase := .plain } := by
  unfold handle
  rw [hen]
  simp

theorem handle_unregistered (g : GlobalConfig) (cmpName rootID : String)
    (renderFn : JValue → String) (props : JValue) (store : List (String × CacheEntry))
    (queue : List CacheEvent) (hen : g.enabled = true)
    (hreg : List.lookup cmpName g.components = none) :
    handle g cmpName rootID renderFn props store queue =
      { result := .ok (renderFn props), props := props, store := store, queue := queue,
        rendererInvoked := true, storeQueried := false, phase := .plain } := by
  unfold handle
  rw [hen, hreg]
  simp

theorem handle_wrapped (g : GlobalConfig) (cfg : CmpConfig) (cmpName rootID : String)
    (renderFn : JValue → String) (props : JValue) (store : List (String × CacheEntry))
    (queue : List CacheEvent) (hen : g.enabled = true)
    (hreg : List.lookup cmpName g.components = some cfg) :
    handle g cmpName rootID renderFn props store queue =
      mountComponentWrapped cfg cmpName rootID renderFn g.hasEventCallback
        props store queue := by
  unfold handle
  rw [hen, hreg]
  simp

theorem mount_thrown (cfg : CmpConfig) (cmpName rootID : String)
    (renderFn : JValue → String) (hasCb : Bool) (props : JValue)
    (store : List (String × CacheEntry)) (queue : List CacheEvent) (msg : String)
    (hgen : cfg.cacheKeyGen props = .thrown msg) :
    mountComponentWrapped cfg cmpName rootID renderFn hasCb props store queue =
      { result := .error msg, props := props, store := store, queue := queue,
        rendererInvoked := false, storeQueried := false, phase := .thrown } := by
  unfold mountComponentWrapped
  rw [hgen]

theorem mount_null (cfg : CmpConfig) (cmpName rootID : String)
    (renderFn : JValue → String) (hasCb : Bool) (props : JValue)
    (store : List (String × CacheEntry)) (queue : List CacheEvent)
    (hgen : cfg.cacheKeyGen props = .val .jnull) :
    mountComponentWrapped cfg cmpName rootID renderFn hasCb props store queue =
      { result := .ok (renderFn props), props := props, store := store, queue := queue,
        rendererInvoked := true, storeQueried := false, phase := .bypassNull } := by
  unfold mountComponentWrapped
  rw [hgen]
  simp

theorem mount_hit (cfg : CmpConfig) (cmpName rootID : String)
    (renderFn : JValue → String) (hasCb : Bool) (props : JValue)
    (store : List (String × CacheEntry)) (queue : List CacheEvent) (gk : JValue)
    (e : CacheEntry)
    (hgen : cfg.cacheKeyGen props = .val gk) (hnn : gk ≠ JValue.jnull)
    (hlook : List.lookup (cacheKeyOf cfg cmpName (jsToString gk) props) store = some e) :
    mountComponentWrapped cfg cmpName rootID renderFn hasCb props store queue =
      { result := .ok (jsReplaceAll (hitParts cfg props e).1
          ("data-reactid=\x22" ++ e.rootId) ("data-reactid=\x22" ++ rootID)),
        props := (hitParts cfg props e).2, store := store,
        queue := if hasCb then queue ++ [⟨.hit, cmpName⟩] else queue,
        rendererInvoked := false, storeQueried := true, phase := .hit } := by
  unfold mountComponentWrapped
  simp only [hgen, hlook]
  rw [if_neg hnn]

theorem mount_miss (cfg : CmpConfig) (cmpName rootID : String)
    (renderFn : JValue → String) (hasCb : Bool) (props : JValue)
    (store : List (String × CacheEntry)) (queue : List CacheEvent) (gk : JValue)
    (hgen : cfg.cacheKeyGen props = .val gk) (hnn : gk ≠ JValue.jnull)
    (hlook : List.lookup (cacheKeyOf cfg cmpName (jsToString gk) props) store = none) :
    mountComponentWrapped cfg cmpName rootID renderFn hasCb props store queue =
      { result := .ok (missParts cfg props renderFn).1,
        props := (missParts cfg props renderFn).2,
        store := (cacheKeyOf cfg cmpName (jsToString gk) props,
          missEntry cfg props renderFn rootID) :: store,
        queue := if hasCb then queue ++ [⟨.miss, cmpName⟩] else queue,
        rendererInvoked := true, storeQueried := true, phase := .miss } := by
  unfold mountComponentWrapped
  simp only [hgen, hlook]
  rw [if_neg hnn]

/-! ## Concrete fixtures for witnesses and counterexamples -/

def propsX : JValue := .obj (.cons "text" (.str "X") .nil)

def renderX : JValue → String := fun p => "<div>" ++ jsToString (jget p ["text"]) ++ "</div>"

def cfgTemplate : CmpConfig :=
  { cacheKeyGen := defaultCacheKeyFunction, templateAttrs := ["text"] }

def gTemplate : GlobalConfig :=
  { components := [("C", cfgTemplate)], hasEventCallback := true, enabled := true }

def cfgThrow : CmpConfig :=
  { cacheKeyGen := fun _ => .thrown "boom", templateAttrs := [] }

def gThrow : GlobalConfig :=
  { components := [("C", cfgThrow)], hasEventCallback := true, enabled := true }

def cfgNull : CmpConfig :=
  { cacheKeyGen := fun _ => .val .jnull, templateAttrs := [] }

def gNull : GlobalConfig :=
  { components := [("C", cfgNull)], hasEventCallback := true, enabled := true }

def cfgUndef : CmpConfig :=
  { cacheKeyGen := fun _ => .val .undef, templateAttrs := [] }

def gUndef : GlobalConfig :=
  { components := [("C", cfgUndef)], hasEventCallback := true, enabled := true }

/-! ## C6: null-key bypass -/

/-- C6 — confirmed.  When the configured cache-key generator returns `null`,
the cache is bypassed entirely: the store is neither read (`storeQueried =
false`) nor written (`store` unchanged), no event is queued, and the host
renderer is invoked afresh on the caller's props — for every such call,
whatever the store already contains. -/
theorem C6_null_key_bypass (g : GlobalConfig) (cfg : CmpConfig) (cmpName rootID : String)
    (renderFn : JValue → String) (props : JValue) (store : List (String × CacheEntry))
    (queue : List CacheEvent)
    (hen : g.enabled = true)
    (hreg : List.lookup cmpName g.components = some cfg)
    (hnull : cfg.cacheKeyGen props = .val .jnull) :
    handle g cmpName rootID renderFn props store queue =
      { result := .ok (renderFn props), props := props, store := store, queue := queue,
        rendererInvoked := true, storeQueried := false, phase := .bypassNull } := by
  rw [handle_wrapped g cfg cmpName rootID renderFn props store queue hen hreg]
  exact mount_null cfg cmpName rootID renderFn g.hasEventCallback props store queue hnull

/-- Witness for `C6_null_key_bypass` with a concrete null-returning
generator. -/
theorem C6_null_key_bypass_witness :
    gNull.enabled = true ∧
    List.lookup "C" gNull.components = some cfgNull ∧
    cfgNull.cacheKeyGen propsX = .val .jnull ∧
    handle gNull "C" "1" renderX propsX [] [] =
      { result := .ok (renderX propsX), props := propsX, store := [], queue := [],
        rendererInvoked := true, storeQueried := false, phase := .bypassNull } :=
  ⟨rfl, rfl, rfl, C6_null_key_bypass gNull cfgNull "C" "1" renderX propsX [] [] rfl rfl rfl⟩

/-! ## C7: throwing key generator -/

/-- C7 — counterexample.  A throwing cache-key generator does not result in
a bypass: the thrown error propagates as the call's result (which is not
the host renderer's output) and the host renderer is never invoked; there
is no try/catch around `cacheKeyGen` at index.js line 167. -/
theorem C7_keygen_throw_counterexample :
    (handle gThrow "C" "1" renderX propsX [] []).result = .error "boom" ∧
    (handle gThrow "C" "1" renderX propsX [] []).result ≠ .ok (renderX propsX) ∧
    (handle gThrow "C" "1" renderX propsX [] []).rendererInvoked = false := by
  decide

/-- C7 — amended.  A cache-key generator that throws during a render call
propagates the exception to the caller: the host renderer is not invoked,
the store is neither read nor written, and no event is queued; only a
strict `null` return produces the (non-throwing) bypass. -/
theorem C7_keygen_throw_amended (g : GlobalConfig) (cfg : CmpConfig) (cmpName rootID : String)
    (renderFn : JValue → String) (props : JValue) (store : List (String × CacheEntry))
    (queue : List CacheEvent) (msg : String)
    (hen : g.enabled = true)
    (hreg : List.lookup cmpName g.components = some cfg)
    (hthrow : cfg.cacheKeyGen props = .thrown msg) :
    handle g cmpName rootID renderFn props store queue =
      { result := .error msg, props := props, store := store, queue := queue,
        rendererInvoked := false, storeQueried := false, phase := .thrown } := by
  rw [handle_wrapped g cfg cmpName rootID renderFn props store queue hen hreg]
  exact mount_thrown cfg cmpName rootID renderFn g.hasEventCallback props store queue msg hthrow

/-- Witness for `C7_keygen_throw_amended` at the concrete throwing
configuration. -/
theorem C7_keygen_throw_amended_witness :
    gThrow.enabled = true ∧
    List.lookup "C" gThrow.components = some cfgThrow ∧
    cfgThrow.cacheKeyGen propsX = .thrown "boom" ∧
    handle gThrow "C" "1" renderX propsX [] [] =
      { result := .error "boom", props := propsX, store := [], queue := [],
        rendererInvoked := false, storeQueried := false, phase := .thrown } :=
  ⟨rfl, rfl, rfl, C7_keygen_throw_amended gThrow cfgThrow "C" "1" renderX propsX [] [] "boom"
    rfl rfl rfl⟩

/-! ## C9: event emission -/

/-- C9 — confirmed.  With an observer registered, every render call ending
in a cache hit or miss appends exactly one matching event to the
`process.nextTick` queue, behind the events already pending (emission
order); bypass, thrown and unwrapped (disabled/unregistered) calls append
none; with no observer registered nothing is queued.  The call only ever
appends to the queue and never invokes the observer itself, so delivery
happens on a later turn, in emission order. -/
theorem C9_event_emission (g : GlobalConfig) (cmpName rootID : String)
    (renderFn : JValue → String) (props : JValue) (store : List (String × CacheEntry))
    (queue : List CacheEvent) :
    ((handle g cmpName rootID renderFn props store queue).phase = .hit →
      g.hasEventCallback = true →
      (handle g cmpName rootID renderFn props store queue).queue =
        queue ++ [⟨.hit, cmpName⟩]) ∧
    ((handle g cmpName rootID renderFn props store queue).phase = .miss →
      g.hasEventCallback = true →
      (handle g cmpName rootID renderFn props store queue).queue =
        queue ++ [⟨.miss, cmpName⟩]) ∧
    ((handle g cmpName rootID renderFn props store queue).phase = .plain ∨
     (handle g cmpName rootID renderFn props store queue).phase = .bypassNull ∨
     (handle g cmpName rootID renderFn props store queue).phase = .thrown →
      (handle g cmpName rootID renderFn props store queue).queue = queue) ∧
    (g.hasEventCallback = false →
      (handle g cmpName rootID renderFn props store queue).queue = queue) := by
  by_cases hen : g.enabled = true
  · cases hreg : List.lookup cmpName g.components with
    | none =>
      rw [handle_unregistered g cmpName rootID renderFn props store queue hen hreg]
      simp
    | some cfg =>
      rw [handle_wrapped g cfg cmpName rootID renderFn props store queue hen hreg]
      cases hgen : cfg.cacheKeyGen props with
      | thrown msg =>
        rw [mount_thrown cfg cmpName rootID renderFn g.hasEventCallback props store queue
          msg hgen]
        simp
      | val gk =>
        by_cases hnn : gk = JValue.jnull
        · subst hnn
          rw [mount_null cfg cmpName rootID renderFn g.hasEventCallback props store queue hgen]
          simp
        · cases hlook : List.lookup (cacheKeyOf cfg cmpName (jsToString gk) props) store with
          | some e =>
            rw [mount_hit cfg cmpName rootID renderFn g.hasEventCallback props store queue
              gk e hgen hnn hlook]
            refine ⟨fun _ hcb => by simp [hcb], fun h _ => by simp at h,
              fun h => by simp at h, fun hcb => by simp [hcb]⟩
          | none =>
            rw [mount_miss cfg cmpName rootID renderFn g.hasEventCallback props store queue
              gk hgen hnn hlook]
            refine ⟨fun h _ => by simp at h, fun _ hcb => by simp [hcb],
              fun h => by simp at h, fun hcb => by simp [hcb]⟩
  · have hen2 : g.enabled = false := by
      cases h : g.enabled
      · rfl
      · exact absurd h hen
    rw [handle_disabled g cmpName rootID renderFn props store queue hen2]
    simp

/-- Witness for `C9_event_emission`: a concrete miss call queues exactly
its one miss event behind an already pending event. -/
theorem C9_event_emission_witness :
    (handle gTemplate "C" "1" renderX propsX [] [⟨.hit, "B"⟩]).queue =
      [⟨.hit, "B"⟩] ++ [⟨.miss, "C"⟩] :=
  (C9_event_emission gTemplate "C" "1" renderX propsX [] [⟨.hit, "B"⟩]).2.1
    (by decide) rfl

/-! ## C10: only strict null bypasses -/

/-- C10 — confirmed.  Only a strict null result bypasses: whenever the
generator returns ANY non-null value — undefined, false, 0, "", or any
other value, falsy or not — the call proceeds with caching (the store is
read and, on a miss, written), the returned value is coerced into the key
string as its JS string coercion, and a repeated identical call finds the
entry (hit, renderer not invoked) instead of bypassing. -/
theorem C10_nonnull_key_cached (g : GlobalConfig) (cfg : CmpConfig)
    (cmpName rootID : String) (renderFn : JValue → String) (props : JValue)
    (store : List (String × CacheEntry)) (queue : List CacheEvent) (gk : JValue)
    (hen : g.enabled = true)
    (hreg : List.lookup cmpName g.components = some cfg)
    (hgen : cfg.cacheKeyGen props = .val gk)
    (hnn : gk ≠ JValue.jnull)
    (hmiss : List.lookup (cacheKeyOf cfg cmpName (jsToString gk) props) store = none) :
    (handle g cmpName rootID renderFn props store queue).phase = .miss ∧
    (handle g cmpName rootID renderFn props store queue).storeQueried = true ∧
    (handle g cmpName rootID renderFn props store queue).rendererInvoked = true ∧
    cacheKeyOf cfg cmpName (jsToString gk) props =
      cmpName ++ ":" ++ jsToString gk ++ ":" ++
        joinComma (templatizeAll cfg.templateAttrs props [] []).2.2 ∧
    (handle g cmpName rootID renderFn props
        (handle g cmpName rootID renderFn props store queue).store queue).phase = .hit ∧
    (handle g cmpName rootID renderFn props
        (handle g cmpName rootID renderFn props store queue).store queue).rendererInvoked
      = false := by
  have hcall1 : handle g cmpName rootID renderFn props store queue =
      mountComponentWrapped cfg cmpName rootID renderFn g.hasEventCallback
        props store queue :=
    handle_wrapped g cfg cmpName rootID renderFn props store queue hen hreg
  have hm := mount_miss cfg cmpName rootID renderFn g.hasEventCallback props store queue
    gk hgen hnn hmiss
  rw [hcall1, hm]
  refine ⟨rfl, rfl, rfl, rfl, ?_, ?_⟩
  · have hcall2 : handle g cmpName rootID renderFn props
        ((cacheKeyOf cfg cmpName (jsToString gk) props,
          missEntry cfg props renderFn rootID) :: store) queue =
        mountComponentWrapped cfg cmpName rootID renderFn g.hasEventCallback props
          ((cacheKeyOf cfg cmpName (jsToString gk) props,
            missEntry cfg props renderFn rootID) :: store) queue :=
      handle_wrapped g cfg cmpName rootID renderFn props _ queue hen hreg
    rw [hcall2, mount_hit cfg cmpName rootID renderFn g.hasEventCallback props _ queue
      gk (missEntry cfg props renderFn rootID) hgen hnn (by simp [List.lookup])]
  · have hcall2 : handle g cmpName rootID renderFn props
        ((cacheKeyOf cfg cmpName (jsToString gk) props,
          missEntry cfg props renderFn rootID) :: store) queue =
        mountComponentWrapped cfg cmpName rootID renderFn g.hasEventCallback props
          ((cacheKeyOf cfg cmpName (jsToString gk) props,
            missEntry cfg props renderFn rootID) :: store) queue :=
      handle_wrapped g cfg cmpName rootID renderFn props _ queue hen hreg
    rw [hcall2, mount_hit cfg cmpName rootID renderFn g.hasEventCallback props _ queue
      gk (missEntry cfg props renderFn rootID) hgen hnn (by simp [List.lookup])]

def cfgFalse : CmpConfig :=
  { cacheKeyGen := fun _ => .val (.bool false), templateAttrs := [] }

def gFalse : GlobalConfig :=
  { components := [("C", cfgFalse)], hasEventCallback := true, enabled := true }

/-- Witness for `C10_nonnull_key_cached` at two concrete falsy non-null
generator returns: `undefined` (key segment "undefined") and `false` (key
segment "false"); both cache (miss, then hit) instead of bypassing. -/
theorem C10_nonnull_key_cached_witness :
    jsToString JValue.undef = "undefined" ∧
    (handle gUndef "C" "1" renderX propsX [] []).phase = .miss ∧
    (handle gUndef "C" "1" renderX propsX
      (handle gUndef "C" "1" renderX propsX [] []).store []).phase = .hit ∧
    jsToString (JValue.bool false) = "false" ∧
    (handle gFalse "C" "1" renderX propsX [] []).phase = .miss ∧
    (handle gFalse "C" "1" renderX propsX
      (handle gFalse "C" "1" renderX propsX [] []).store []).phase = .hit :=
  have h1 := C10_nonnull_key_cached gUndef cfgUndef "C" "1" renderX propsX [] []
    JValue.undef rfl rfl rfl (by decide) rfl
  have h2 := C10_nonnull_key_cached gFalse cfgFalse "C" "1" renderX propsX [] []
    (JValue.bool false) rfl rfl rfl (by decide) rfl
  ⟨rfl, h1.1, h1.2.2.2.2.1, rfl, h2.1, h2.2.2.2.2.1⟩

/-! ## Counterexample fixtures for C2-C5 and C8 -/

def propsAmp : JValue := .obj (.cons "text" (.str "A&B") .nil)

def propsNum : JValue := .obj (.cons "n" (.num 5) .nil)

def props4a : JValue := .obj (.cons "text" (.str "X") (.cons "other" (.str "1") .nil))

def props4b : JValue := .obj (.cons "text" (.str "X") (.cons "other" (.str "2") .nil))

def props5a : JValue := .obj (.cons "x" (.arr (.cons (.num 5) (.cons (.num 6) .nil))) .nil)

def props5b : JValue := .obj (.cons "x"
  (.arr (.cons (.obj (.cons "q:a.x" (.arr (.cons (.num 7) (.cons (.num 8) .nil))) .nil)) .nil))
  .nil)

/-- A (legitimately implementable) custom key generator that returns
different key strings for the two C5 fixture trees. -/
def gen5 : JValue -> GenResult := fun p =>
  if p = props5a then .val (.str "k:a.x_1,a.x.0.q") else .val (.str "k")

def cfg5 : CmpConfig := { cacheKeyGen := gen5, templateAttrs := ["x"] }

def g5 : GlobalConfig :=
  { components := [("C", cfg5)], hasEventCallback := false, enabled := true }

/-! ## C2 / C3 / C4 / C5 / C8 counterexamples -/

/-- C2 — counterexample.  Template substitution does not operate on a copy:
after a render call on a component configured with `templateAttrs`, the
caller's props tree is changed — the template leaf "A&B" has been
overwritten with the browser-escaped string "A&amp;B" (index.js line 111
writes `lookupPropTable[_attrKey]`, the escaped value, back into the
caller's own tree). -/
theorem C2_props_mutated_counterexample :
    (handle gTemplate "C" "1" renderX propsAmp [] []).props ≠ propsAmp ∧
    (handle gTemplate "C" "1" renderX propsAmp [] []).props =
      .obj (.cons "text" (.str "A&amp;B") .nil) := by
  decide

/-- C3 — counterexample.  Flattening then unflattening does not reproduce
the original leaf values for non-string scalars: the numeric leaf `5` comes
back as the string "5" (`templatizeAttr` stores
`escapeTextContentForBrowser(propValue)` and `restoreAttr` writes that
string back). -/
theorem C3_roundtrip_counterexample :
    restoreAllProps ["n"] (templatizeAll ["n"] propsNum [] []).1
      (templatizeAll ["n"] propsNum [] []).2.1 =
      .obj (.cons "n" (.str "5") .nil) ∧
    restoreAllProps ["n"] (templatizeAll ["n"] propsNum [] []).1
      (templatizeAll ["n"] propsNum [] []).2.1 ≠ propsNum := by
  decide

/-- C4 — counterexample.  Two calls whose non-template attributes differ can
share a cache entry: with the default constant key generator the key
ignores the props entirely, so the second call (different "other"
attribute) is a hit and the host renderer is not invoked. -/
theorem C4_nontemplate_shared_counterexample :
    props4a ≠ props4b ∧
    jget props4a ["other"] ≠ jget props4b ["other"] ∧
    (handle gTemplate "C" "1" renderX props4a [] []).phase = .miss ∧
    (handle gTemplate "C" "2" renderX props4b
      (handle gTemplate "C" "1" renderX props4a [] []).store []).phase = .hit ∧
    (handle gTemplate "C" "2" renderX props4b
      (handle gTemplate "C" "1" renderX props4a [] []).store []).rendererInvoked = false := by
  decide

/-- C5 — counterexample.  Two calls whose template attribute `x` holds
arrays of different lengths (2 and 1) can still produce the same CacheKey,
because the custom key generator's output and an object key containing ":"
and "," recombine into the same composite string
`C:k:a.x_1,a.x.0.q:a.x_2`; the second call is then a hit sharing the first
call's entry instead of a miss. -/
theorem C5_shape_collision_counterexample :
    jget props5a ["x"] = .arr (.cons (.num 5) (.cons (.num 6) .nil)) ∧
    jget props5b ["x"] =
      .arr (.cons (.obj (.cons "q:a.x" (.arr (.cons (.num 7) (.cons (.num 8) .nil))) .nil)) .nil) ∧
    cacheKeyOf cfg5 "C" "k:a.x_1,a.x.0.q" props5a =
      cacheKeyOf cfg5 "C" "k" props5b ∧
    (handle g5 "C" "1" renderX props5a [] []).phase = .miss ∧
    (handle g5 "C" "2" renderX props5b
      (handle g5 "C" "1" renderX props5a [] []).store []).phase = .hit ∧
    (handle g5 "C" "2" renderX props5b
      (handle g5 "C" "1" renderX props5a [] []).store []).rendererInvoked = false := by
  decide

mutual
theorem templatizeAttr_eq : ∀ (pk : String) (v : JValue) (t : List (String × String))
    (a : List String), templatizeAttr pk v t a =
      (phVal pk v, (leafEntries pk v).reverse ++ t, a ++ arrEntries pk v)
  | pk, .str s, t, a => by
    simp [templatizeAttr, phVal, leafEntries, arrEntries]
  | pk, .num n, t, a => by
    simp [templatizeAttr, phVal, leafEntries, arrEntries]
  | pk, .bool b, t, a => by
    simp [templatizeAttr, phVal, leafEntries, arrEntries]
  | pk, .jnull, t, a => by
    simp [templatizeAttr, phVal, leafEntries, arrEntries]
  | pk, .undef, t, a => by
    simp [templatizeAttr, phVal, leafEntries, arrEntries]
  | pk, .obj fs, t, a => by
    simp [templatizeAttr, phVal, leafEntries, arrEntries, templatizeFields_eq pk fs t a]
  | pk, .arr es, t, a => by
    simp [templatizeAttr, phVal, leafEntries, arrEntries,
      templatizeElems_eq pk 0 es t (a ++ [pk ++ "_" ++ natStr (elemsLen es)])]
theorem templatizeFields_eq : ∀ (pk : String) (fs : JFields) (t : List (String × String))
    (a : List String), templatizeFields pk fs t a =
      (phValF pk fs, (leafEntriesF pk fs).reverse ++ t, a ++ arrEntriesF pk fs)
  | pk, .nil, t, a => by
    simp [templatizeFields, phValF, leafEntriesF, arrEntriesF]
  | pk, .cons k v rest, t, a => by
    simp only [templatizeFields, phValF, leafEntriesF, arrEntriesF,
      templatizeAttr_eq (pk ++ "." ++ k) v t a]
    simp [templatizeFields_eq pk rest ((leafEntries (pk ++ "." ++ k) v).reverse ++ t)
      (a ++ arrEntries (pk ++ "." ++ k) v)]
theorem templatizeElems_eq : ∀ (pk : String) (i : Nat) (es : JElems)
    (t : List (String × String)) (a : List String), templatizeElems pk i es t a =
      (phValE pk i es, (leafEntriesE pk i es).reverse ++ t, a ++ arrEntriesE pk i es)
  | pk, i, .nil, t, a => by
    simp [templatizeElems, phValE, leafEntriesE, arrEntriesE]
  | pk, i, .cons v rest, t, a => by
    simp only [templatizeElems, phValE, leafEntriesE, arrEntriesE,
      templatizeAttr_eq (pk ++ "." ++ natStr i) v t a]
    simp [templatizeElems_eq pk (i + 1) rest
      ((leafEntries (pk ++ "." ++ natStr i) v).reverse ++ t)
      (a ++ arrEntries (pk ++ "." ++ natStr i) v)]
end

/-- One `forEach` step in terms of the characterization. -/
theorem templatizeStep_eq (props : JValue) (t : List (String × String)) (a : List String)
    (attrKey : String) : templatizeStep props t a attrKey =
      (jset props (splitPath attrKey) (phVal ("a." ++ attrKey) (jget props (splitPath attrKey))),
       (leafEntries ("a." ++ attrKey) (jget props (splitPath attrKey))).reverse ++ t,
       a ++ arrEntries ("a." ++ attrKey) (jget props (splitPath attrKey))) := by
  simp only [templatizeStep, templatizeAttr_eq]


/-! ## Shape preservation

The array-shape fingerprint depends only on the shape of the traversed
values; the per-call props rewriting preserves pointwise shape equality. -/

theorem sameShapeE_len : ∀ a b, sameShapeE a b = true → elemsLen a = elemsLen b
  | .nil, .nil, _ => rfl
  | .nil, .cons _ _, h => by simp [sameShapeE] at h
  | .cons _ _, .nil, h => by simp [sameShapeE] at h
  | .cons v r, .cons w s, h => by
    simp only [sameShapeE, Bool.and_eq_true] at h
    simp [elemsLen, sameShapeE_len r s h.2]

theorem getField_shape : ∀ (fs gs : JFields) (k : String), sameShapeF fs gs = true →
    sameShape ((getField fs k).getD .undef) ((getField gs k).getD .undef) = true
  | .nil, .nil, k, _ => by simp [getField, sameShape]
  | .nil, .cons _ _ _, _, h => by simp [sameShapeF] at h
  | .cons _ _ _, .nil, _, h => by simp [sameShapeF] at h
  | .cons k1 v r, .cons k2 w s, k, h => by
    simp only [sameShapeF, Bool.and_eq_true, decide_eq_true_eq] at h
    obtain ⟨⟨hk, hv⟩, hr⟩ := h
    subst hk
    by_cases he : k1 = k
    · simp [getField, he, hv]
    · simp only [getField, if_neg he]
      exact getField_shape r s k hr

theorem getIdx_shape : ∀ (es fs : JElems) (i : Nat), sameShapeE es fs = true →
    sameShape ((getIdx es i).getD .undef) ((getIdx fs i).getD .undef) = true
  | .nil, .nil, i, _ => by simp [getIdx, sameShape]
  | .nil, .cons _ _, _, h => by simp [sameShapeE] at h
  | .cons _ _, .nil, _, h => by simp [sameShapeE] at h
  | .cons v r, .cons w s, 0, h => by
    simp only [sameShapeE, Bool.and_eq_true] at h
    simpa [getIdx] using h.1
  | .cons v r, .cons w s, i + 1, h => by
    simp only [sameShapeE, Bool.and_eq_true] at h
    simpa [getIdx] using getIdx_shape r s i h.2

theorem jget_arr_def (es : JElems) (k : String) (rest : List String) :
    jget (.arr es) (k :: rest) =
      (match segToNat? k with
       | some i => jget ((getIdx es i).getD .undef) rest
       | none => jget .undef rest) := rfl

theorem jget_nil : ∀ v : JValue, jget v [] = v := by
  intro v
  cases v <;> rfl

theorem jget_shape : ∀ (path : List String) (p q : JValue), sameShape p q = true →
    sameShape (jget p path) (jget q path) = true := by
  intro path
  induction path with
  | nil => intro p q h; rw [jget_nil, jget_nil]; exact h
  | cons k rest ih =>
    intro p q h
    cases p <;> cases q <;> simp only [sameShape] at h <;>
      first
      | exact Bool.noConfusion h
      | exact ih .undef .undef rfl
      | exact ih _ _ (getField_shape _ _ k h)
      | (rw [jget_arr_def, jget_arr_def]
         cases hseg : segToNat? k with
         | some i => exact ih _ _ (getIdx_shape _ _ i h)
         | none => exact ih .undef .undef rfl)

theorem setField_shape : ∀ (fs gs : JFields) (k : String) (v w : JValue),
    sameShapeF fs gs = true → sameShape v w = true →
    sameShapeF (setField fs k v) (setField gs k w) = true
  | .nil, .nil, k, v, w, _, hvw => by simp [setField, sameShapeF, hvw]
  | .nil, .cons _ _ _, _, _, _, h, _ => by simp [sameShapeF] at h
  | .cons _ _ _, .nil, _, _, _, h, _ => by simp [sameShapeF] at h
  | .cons k1 u r, .cons k2 x s, k, v, w, h, hvw => by
    simp only [sameShapeF, Bool.and_eq_true, decide_eq_true_eq] at h
    obtain ⟨⟨hk, hu⟩, hr⟩ := h
    subst hk
    by_cases he : k1 = k
    · simp [setField, he, sameShapeF, hvw, hr]
    · simp only [setField, if_neg he]
      simp [sameShapeF, hu, setField_shape r s k v w hr hvw]

theorem setIdx_shape : ∀ (es fs : JElems) (i : Nat) (v w : JValue),
    sameShapeE es fs = true → sameShape v w = true →
    sameShapeE (setIdx es i v) (setIdx fs i w) = true
  | .nil, .nil, 0, v, w, _, hvw => by simp [setIdx, sameShapeE, hvw]
  | .nil, .nil, i + 1, v, w, _, hvw => by
    simp only [setIdx]
    simp [sameShapeE, setIdx_shape .nil .nil i v w rfl hvw, sameShape]
  | .nil, .cons _ _, _, _, _, h, _ => by simp [sameShapeE] at h
  | .cons _ _, .nil, _, _, _, h, _ => by simp [sameShapeE] at h
  | .cons u r, .cons x s, 0, v, w, h, hvw => by
    simp only [sameShapeE, Bool.and_eq_true] at h
    simp [setIdx, sameShapeE, hvw, h.2]
  | .cons u r, .cons x s, i + 1, v, w, h, hvw => by
    simp only [sameShapeE, Bool.and_eq_true] at h
    simp [setIdx, sameShapeE, h.1, setIdx_shape r s i v w h.2 hvw]

theorem jset_arr_def (es : JElems) (k : String) (rest : List String) (v : JValue) :
    jset (.arr es) (k :: rest) v =
      (match segToNat? k with
       | some i => JValue.arr (setIdx es i (jset ((getIdx es i).getD .undef) rest v))
       | none => JValue.arr es) := rfl

theorem jset_scalar_def (p : JValue) (k : String) (rest : List String) (v : JValue)
    (hp : (match p with | .obj _ => False | .arr _ => False | _ => True)) :
    jset p (k :: rest) v =
      (match segToNat? k with
       | some i => JValue.arr (setIdx .nil i (jset .undef rest v))
       | none => JValue.obj (.cons k (jset .undef rest v) .nil)) := by
  cases p <;> first | rfl | exact absurd hp (by simp)

theorem jset_nil : ∀ (p v : JValue), jset p [] v = v := by
  intro p v
  cases p <;> rfl

theorem jset_shape : ∀ (path : List String) (p q v w : JValue),
    sameShape p q = true → sameShape v w = true →
    sameShape (jset p path v) (jset q path w) = true := by
  intro path
  induction path with
  | nil => intro p q v w _ hvw; rw [jset_nil, jset_nil]; exact hvw
  | cons k rest ih =>
    intro p q v w h hvw
    cases p <;> cases q <;> simp only [sameShape] at h <;>
      first
      | exact Bool.noConfusion h
      | exact setField_shape _ _ k _ _ h (ih _ _ v w (getField_shape _ _ k h) hvw)
      | (rw [jset_arr_def, jset_arr_def]
         cases hseg : segToNat? k with
         | some i => exact setIdx_shape _ _ i _ _ h (ih _ _ v w (getIdx_shape _ _ i h) hvw)
         | none => exact h)
      | (rw [jset_scalar_def _ k rest v (by simp), jset_scalar_def _ k rest w (by simp)]
         cases hseg : segToNat? k with
         | some i => exact setIdx_shape .nil .nil i _ _ rfl (ih .undef .undef v w rfl hvw)
         | none =>
           show sameShapeF (.cons k (jset JValue.undef rest v) .nil)
             (.cons k (jset JValue.undef rest w) .nil) = true
           simp [sameShapeF, ih .undef .undef v w rfl hvw])

mutual
theorem phVal_shape : ∀ (pk : String) (v w : JValue), sameShape v w = true →
    sameShape (phVal pk v) (phVal pk w) = true
  | pk, .obj fs, .obj gs, h => by
    simp only [sameShape] at h
    simp only [phVal, sameShape]
    exact phValF_shape pk fs gs h
  | pk, .arr es, .arr fs2, h => by
    simp only [sameShape] at h
    simp only [phVal, sameShape]
    exact phValE_shape pk 0 es fs2 h
  | pk, .obj _, .str _, h => by simp [sameShape] at h
  | pk, .obj _, .num _, h => by simp [sameShape] at h
  | pk, .obj _, .bool _, h => by simp [sameShape] at h
  | pk, .obj _, .jnull, h => by simp [sameShape] at h
  | pk, .obj _, .undef, h => by simp [sameShape] at h
  | pk, .obj _, .arr _, h => by simp [sameShape] at h
  | pk, .arr _, .str _, h => by simp [sameShape] at h
  | pk, .arr _, .num _, h => by simp [sameShape] at h
  | pk, .arr _, .bool _, h => by simp [sameShape] at h
  | pk, .arr _, .jnull, h => by simp [sameShape] at h
  | pk, .arr _, .undef, h => by simp [sameShape] at h
  | pk, .arr _, .obj _, h => by simp [sameShape] at h
  | pk, .str _, .obj _, h => by simp [sameShape] at h
  | pk, .num _, .obj _, h => by simp [sameShape] at h
  | pk, .bool _, .obj _, h => by simp [sameShape] at h
  | pk, .jnull, .obj _, h => by simp [sameShape] at h
  | pk, .undef, .obj _, h => by simp [sameShape] at h
  | pk, .str _, .arr _, h => by simp [sameShape] at h
  | pk, .num _, .arr _, h => by simp [sameShape] at h
  | pk, .bool _, .arr _, h => by simp [sameShape] at h
  | pk, .jnull, .arr _, h => by simp [sameShape] at h
  | pk, .undef, .arr _, h => by simp [sameShape] at h
  | pk, .str _, .str _, _ => rfl
  | pk, .str _, .num _, _ => rfl
  | pk, .str _, .bool _, _ => rfl
  | pk, .str _, .jnull, _ => rfl
  | pk, .str _, .undef, _ => rfl
  | pk, .num _, .str _, _ => rfl
  | pk, .num _, .num _, _ => rfl
  | pk, .num _, .bool _, _ => rfl
  | pk, .num _, .jnull, _ => rfl
  | pk, .num _, .undef, _ => rfl
  | pk, .bool _, .str _, _ => rfl
  | pk, .bool _, .num _, _ => rfl
  | pk, .bool _, .bool _, _ => rfl
  | pk, .bool _, .jnull, _ => rfl
  | pk, .bool _, .undef, _ => rfl
  | pk, .jnull, .str _, _ => rfl
  | pk, .jnull, .num _, _ => rfl
  | pk, .jnull, .bool _, _ => rfl
  | pk, .jnull, .jnull, _ => rfl
  | pk, .jnull, .undef, _ => rfl
  | pk, .undef, .str _, _ => rfl
  | pk, .undef, .num _, _ => rfl
  | pk, .undef, .bool _, _ => rfl
  | pk, .undef, .jnull, _ => rfl
  | pk, .undef, .undef, _ => rfl
theorem phValF_shape : ∀ (pk : String) (fs gs : JFields), sameShapeF fs gs = true →
    sameShapeF (phValF pk fs) (phValF pk gs) = true
  | pk, .nil, .nil, _ => rfl
  | pk, .nil, .cons _ _ _, h => by simp [sameShapeF] at h
  | pk, .cons _ _ _, .nil, h => by simp [sameShapeF] at h
  | pk, .cons k1 v r, .cons k2 w s, h => by
    simp only [sameShapeF, Bool.and_eq_true, decide_eq_true_eq] at h
    obtain ⟨⟨hk, hv⟩, hr⟩ := h
    subst hk
    simp only [phValF, sameShapeF, Bool.and_eq_true, decide_eq_true_eq]
    exact ⟨⟨trivial, phVal_shape _ v w hv⟩, phValF_shape pk r s hr⟩
theorem phValE_shape : ∀ (pk : String) (i : Nat) (es fs : JElems), sameShapeE es fs = true →
    sameShapeE (phValE pk i es) (phValE pk i fs) = true
  | pk, i, .nil, .nil, _ => rfl
  | pk, i, .nil, .cons _ _, h => by simp [sameShapeE] at h
  | pk, i, .cons _ _, .nil, h => by simp [sameShapeE] at h
  | pk, i, .cons v r, .cons w s, h => by
    simp only [sameShapeE, Bool.and_eq_true] at h
    simp only [phValE, sameShapeE, Bool.and_eq_true]
    exact ⟨phVal_shape _ v w h.1, phValE_shape pk (i + 1) r s h.2⟩
end

mutual
theorem arrEntries_shape : ∀ (pk : String) (v w : JValue), sameShape v w = true →
    arrEntries pk v = arrEntries pk w
  | pk, .obj fs, .obj gs, h => by
    simp only [sameShape] at h
    simp only [arrEntries]
    exact arrEntriesF_shape pk fs gs h
  | pk, .arr es, .arr fs2, h => by
    simp only [sameShape] at h
    simp only [arrEntries]
    rw [sameShapeE_len es fs2 h, arrEntriesE_shape pk 0 es fs2 h]
  | pk, .obj _, .str _, h => by simp [sameShape] at h
  | pk, .obj _, .num _, h => by simp [sameShape] at h
  | pk, .obj _, .bool _, h => by simp [sameShape] at h
  | pk, .obj _, .jnull, h => by simp [sameShape] at h
  | pk, .obj _, .undef, h => by simp [sameShape] at h
  | pk, .obj _, .arr _, h => by simp [sameShape] at h
  | pk, .arr _, .str _, h => by simp [sameShape] at h
  | pk, .arr _, .num _, h => by simp [sameShape] at h
  | pk, .arr _, .bool _, h => by simp [sameShape] at h
  | pk, .arr _, .jnull, h => by simp [sameShape] at h
  | pk, .arr _, .undef, h => by simp [sameShape] at h
  | pk, .arr _, .obj _, h => by simp [sameShape] at h
  | pk, .str _, .obj _, h => by simp [sameShape] at h
  | pk, .num _, .obj _, h => by simp [sameShape] at h
  | pk, .bool _, .obj _, h => by simp [sameShape] at h
  | pk, .jnull, .obj _, h => by simp [sameShape] at h
  | pk, .undef, .obj _, h => by simp [sameShape] at h
  | pk, .str _, .arr _, h => by simp [sameShape] at h
  | pk, .num _, .arr _, h => by simp [sameShape] at h
  | pk, .bool _, .arr _, h => by simp [sameShape] at h
  | pk, .jnull, .arr _, h => by simp [sameShape] at h
  | pk, .undef, .arr _, h => by simp [sameShape] at h
  | pk, .str _, .str _, _ => rfl
  | pk, .str _, .num _, _ => rfl
  | pk, .str _, .bool _, _ => rfl
  | pk, .str _, .jnull, _ => rfl
  | pk, .str _, .undef, _ => rfl
  | pk, .num _, .str _, _ => rfl
  | pk, .num _, .num _, _ => rfl
  | pk, .num _, .bool _, _ => rfl
  | pk, .num _, .jnull, _ => rfl
  | pk, .num _, .undef, _ => rfl
  | pk, .bool _, .str _, _ => rfl
  | pk, .bool _, .num _, _ => rfl
  | pk, .bool _, .bool _, _ => rfl
  | pk, .bool _, .jnull, _ => rfl
  | pk, .bool _, .undef, _ => rfl
  | pk, .jnull, .str _, _ => rfl
  | pk, .jnull, .num _, _ => rfl
  | pk, .jnull, .bool _, _ => rfl
  | pk, .jnull, .jnull, _ => rfl
  | pk, .jnull, .undef, _ => rfl
  | pk, .undef, .str _, _ => rfl
  | pk, .undef, .num _, _ => rfl
  | pk, .undef, .bool _, _ => rfl
  | pk, .undef, .jnull, _ => rfl
  | pk, .undef, .undef, _ => rfl
theorem arrEntriesF_shape : ∀ (pk : String) (fs gs : JFields), sameShapeF fs gs = true →
    arrEntriesF pk fs = arrEntriesF pk gs
  | pk, .nil, .nil, _ => rfl
  | pk, .nil, .cons _ _ _, h => by simp [sameShapeF] at h
  | pk, .cons _ _ _, .nil, h => by simp [sameShapeF] at h
  | pk, .cons k1 v r, .cons k2 w s, h => by
    simp only [sameShapeF, Bool.and_eq_true, decide_eq_true_eq] at h
    obtain ⟨⟨hk, hv⟩, hr⟩ := h
    subst hk
    simp only [arrEntriesF]
    rw [arrEntries_shape _ v w hv, arrEntriesF_shape pk r s hr]
theorem arrEntriesE_shape : ∀ (pk : String) (i : Nat) (es fs : JElems),
    sameShapeE es fs = true → arrEntriesE pk i es = arrEntriesE pk i fs
  | pk, i, .nil, .nil, _ => rfl
  | pk, i, .nil, .cons _ _, h => by simp [sameShapeE] at h
  | pk, i, .cons _ _, .nil, h => by simp [sameShapeE] at h
  | pk, i, .cons v r, .cons w s, h => by
    simp only [sameShapeE, Bool.and_eq_true] at h
    simp only [arrEntriesE]
    rw [arrEntries_shape _ v w h.1, arrEntriesE_shape pk (i + 1) r s h.2]
end

/-- The array-shape fingerprint of a call depends only on the shapes of the
values at the template attribute paths (scalar leaf values never influence
it); shape equality of the props trees transports along the whole
traversal. -/
theorem templatizeAll_addl_shape : ∀ (attrs : List String) (p q : JValue)
    (t1 t2 : List (String × String)) (a : List String), sameShape p q = true →
    (templatizeAll attrs p t1 a).2.2 = (templatizeAll attrs q t2 a).2.2
  | [], p, q, t1, t2, a, _ => rfl
  | attrKey :: rest, p, q, t1, t2, a, h => by
    simp only [templatizeAll, templatizeStep_eq]
    have hv : sameShape (jget p (splitPath attrKey)) (jget q (splitPath attrKey)) = true :=
      jget_shape (splitPath attrKey) p q h
    rw [arrEntries_shape _ _ _ hv]
    exact templatizeAll_addl_shape rest _ _ _ _ _
      (jset_shape (splitPath attrKey) p q _ _ h
        (phVal_shape ("a." ++ attrKey) _ _ hv))

/-- Shape-equal props trees produce the same CacheKey whenever the
generated key components agree. -/
theorem cacheKeyOf_shape (cfg : CmpConfig) (cmpName gkStr : String) (p q : JValue)
    (h : sameShape p q = true) :
    cacheKeyOf cfg cmpName gkStr p = cacheKeyOf cfg cmpName gkStr q := by
  unfold cacheKeyOf
  rw [templatizeAll_addl_shape cfg.templateAttrs p q [] [] [] h]


/-! ## C4: scalar template leaves and the cache key -/

def propsY : JValue := .obj (.cons "text" (.str "Y") .nil)

/-- C4 — amended.  The array-shape fingerprint component of the CacheKey
depends only on the structural shape of the template attribute values,
never on their scalar leaves; therefore, whenever the configured key
generator returns the same (non-null) value for two shape-equal props
trees, both calls produce the same CacheKey, and after the first call
misses the second call is served from the same entry without invoking the
host renderer.  (Calls whose non-template attributes differ are kept apart
only insofar as the configured key generator distinguishes them — with the
default constant generator they share an entry, see the counterexample.) -/
theorem C4_scalar_leaves_share_entry (g : GlobalConfig) (cfg : CmpConfig)
    (cmpName rootID1 rootID2 : String) (renderFn : JValue → String) (p1 p2 : JValue)
    (store : List (String × CacheEntry)) (queue : List CacheEvent) (gk : JValue)
    (hen : g.enabled = true)
    (hreg : List.lookup cmpName g.components = some cfg)
    (hgen1 : cfg.cacheKeyGen p1 = .val gk)
    (hgen2 : cfg.cacheKeyGen p2 = .val gk)
    (hnn : gk ≠ JValue.jnull)
    (hshape : sameShape p1 p2 = true)
    (hmiss : List.lookup (cacheKeyOf cfg cmpName (jsToString gk) p1) store = none) :
    cacheKeyOf cfg cmpName (jsToString gk) p1 = cacheKeyOf cfg cmpName (jsToString gk) p2 ∧
    (handle g cmpName rootID1 renderFn p1 store queue).phase = .miss ∧
    (handle g cmpName rootID1 renderFn p1 store queue).rendererInvoked = true ∧
    (handle g cmpName rootID2 renderFn p2
      (handle g cmpName rootID1 renderFn p1 store queue).store queue).phase = .hit ∧
    (handle g cmpName rootID2 renderFn p2
      (handle g cmpName rootID1 renderFn p1 store queue).store queue).rendererInvoked
      = false ∧
    (handle g cmpName rootID2 renderFn p2
      (handle g cmpName rootID1 renderFn p1 store queue).store queue).store =
      (handle g cmpName rootID1 renderFn p1 store queue).store := by
  have hkeys := cacheKeyOf_shape cfg cmpName (jsToString gk) p1 p2 hshape
  have h1 : handle g cmpName rootID1 renderFn p1 store queue =
      { result := .ok (missParts cfg p1 renderFn).1,
        props := (missParts cfg p1 renderFn).2,
        store := (cacheKeyOf cfg cmpName (jsToString gk) p1,
          missEntry cfg p1 renderFn rootID1) :: store,
        queue := if g.hasEventCallback then queue ++ [⟨.miss, cmpName⟩] else queue,
        rendererInvoked := true, storeQueried := true, phase := .miss } := by
    rw [handle_wrapped g cfg cmpName rootID1 renderFn p1 store queue hen hreg]
    exact mount_miss cfg cmpName rootID1 renderFn g.hasEventCallback p1 store queue gk
      hgen1 hnn hmiss
  have hlook2 : List.lookup (cacheKeyOf cfg cmpName (jsToString gk) p2)
      ((cacheKeyOf cfg cmpName (jsToString gk) p1,
        missEntry cfg p1 renderFn rootID1) :: store) =
      some (missEntry cfg p1 renderFn rootID1) := by
    rw [← hkeys]
    simp [List.lookup]
  have h2 : handle g cmpName rootID2 renderFn p2
      ((cacheKeyOf cfg cmpName (jsToString gk) p1,
        missEntry cfg p1 renderFn rootID1) :: store) queue =
      { result := .ok (jsReplaceAll
          (hitParts cfg p2 (missEntry cfg p1 renderFn rootID1)).1
          ("data-reactid=\x22" ++ (missEntry cfg p1 renderFn rootID1).rootId)
          ("data-reactid=\x22" ++ rootID2)),
        props := (hitParts cfg p2 (missEntry cfg p1 renderFn rootID1)).2,
        store := (cacheKeyOf cfg cmpName (jsToString gk) p1,
          missEntry cfg p1 renderFn rootID1) :: store,
        queue := if g.hasEventCallback then queue ++ [⟨.hit, cmpName⟩] else queue,
        rendererInvoked := false, storeQueried := true, phase := .hit } := by
    rw [handle_wrapped g cfg cmpName rootID2 renderFn p2 _ queue hen hreg]
    exact mount_hit cfg cmpName rootID2 renderFn g.hasEventCallback p2 _ queue gk
      (missEntry cfg p1 renderFn rootID1) hgen2 hnn hlook2
  refine ⟨hkeys, ?_, ?_, ?_, ?_, ?_⟩
  · rw [h1]
  · rw [h1]
  · rw [h1]
    simp only
    rw [h2]
  · rw [h1]
    simp only
    rw [h2]
  · rw [h1]
    simp only
    rw [h2]

/-- Witness for `C4_scalar_leaves_share_entry`: two concrete calls that
differ only in the scalar value of the template attribute "text". -/
theorem C4_scalar_leaves_share_entry_witness :
    gTemplate.enabled = true ∧
    List.lookup "C" gTemplate.components = some cfgTemplate ∧
    cfgTemplate.cacheKeyGen propsX = .val (.str "_defaultKey") ∧
    cfgTemplate.cacheKeyGen propsY = .val (.str "_defaultKey") ∧
    (.str "_defaultKey" : JValue) ≠ .jnull ∧
    sameShape propsX propsY = true ∧
    List.lookup (cacheKeyOf cfgTemplate "C" (jsToString (.str "_defaultKey")) propsX)
      ([] : List (String × CacheEntry)) = none ∧
    (handle gTemplate "C" "2" renderX propsY
      (handle gTemplate "C" "1" renderX propsX [] []).store []).phase = .hit :=
  ⟨rfl, rfl, rfl, rfl, by decide, by decide, rfl,
    (C4_scalar_leaves_share_entry gTemplate cfgTemplate "C" "1" "2" renderX propsX propsY
      [] [] (.str "_defaultKey") rfl rfl rfl rfl (by decide) (by decide) rfl).2.2.2.1⟩


/-! ## Path independence and frame lemmas for lodash get/set -/

/-- Two path segments address the same child of a node: equal strings, or
index words with the same numeric value. -/
def segAlias (a b : String) : Bool :=
  a = b ||
    (match segToNat? a, segToNat? b with
     | some i, some j => i = j
     | _, _ => false)

def pathBelowA : List String → List String → Bool
  | [], _ => true
  | _ :: _, [] => false
  | a :: r, b :: s => segAlias a b && pathBelowA r s

/-- Neither path addresses a position inside the other's subtree. -/
def noOverlap (p q : List String) : Bool := !(pathBelowA p q || pathBelowA q p)

/-- Pairwise independence of the configured attribute paths. -/
def attrsIndep : List String → Bool
  | [] => true
  | a :: rest =>
    rest.all (fun b => noOverlap (splitPath a) (splitPath b)) && attrsIndep rest

/-- All steps of the path are assignable: no existing array is addressed
with a non-index segment (lodash `set` would silently skip such a write in
the modelled value space). -/
def setOk : JValue → List String → Bool
  | _, [] => true
  | .obj fs, k :: rest => setOk ((getField fs k).getD .undef) rest
  | .arr es, k :: rest =>
    match segToNat? k with
    | some i => setOk ((getIdx es i).getD .undef) rest
    | none => false
  | _, _ :: rest => setOk .undef rest

theorem getField_setField_same : ∀ (fs : JFields) (k : String) (v : JValue),
    getField (setField fs k v) k = some v
  | .nil, k, v => by simp [setField, getField]
  | .cons k1 w r, k, v => by
    by_cases he : k1 = k
    · simp [setField, getField, he]
    · simp only [setField, if_neg he, getField, if_neg he]
      exact getField_setField_same r k v

theorem getField_setField_other : ∀ (fs : JFields) (k k2 : String) (v : JValue),
    k ≠ k2 → getField (setField fs k v) k2 = getField fs k2
  | .nil, k, k2, v, h => by simp [setField, getField, h]
  | .cons k1 w r, k, k2, v, h => by
    by_cases he : k1 = k
    · subst he
      simp [setField, getField, h]
    · simp only [setField, if_neg he, getField]
      by_cases he2 : k1 = k2
      · simp [he2]
      · simp only [if_neg he2]
        exact getField_setField_other r k k2 v h

theorem getIdx_setIdx_same : ∀ (es : JElems) (i : Nat) (v : JValue),
    getIdx (setIdx es i v) i = some v
  | .nil, 0, v => rfl
  | .nil, i + 1, v => by
    simp only [setIdx, getIdx]
    exact getIdx_setIdx_same .nil i v
  | .cons w r, 0, v => rfl
  | .cons w r, i + 1, v => by
    simp only [setIdx, getIdx]
    exact getIdx_setIdx_same r i v

theorem getIdx_setIdx_other : ∀ (es : JElems) (i j : Nat) (v : JValue), i ≠ j →
    (getIdx (setIdx es i v) j).getD .undef = (getIdx es j).getD .undef
  | .nil, 0, 0, v, h => absurd rfl h
  | .nil, 0, j + 1, v, h => by simp [setIdx, getIdx]
  | .nil, i + 1, 0, v, h => by simp [setIdx, getIdx]
  | .nil, i + 1, j + 1, v, h => by
    simp only [setIdx, getIdx]
    exact getIdx_setIdx_other .nil i j v (by omega)
  | .cons w r, 0, 0, v, h => absurd rfl h
  | .cons w r, 0, j + 1, v, h => by simp [setIdx, getIdx]
  | .cons w r, i + 1, 0, v, h => by simp [setIdx, getIdx]
  | .cons w r, i + 1, j + 1, v, h => by
    simp only [setIdx, getIdx]
    exact getIdx_setIdx_other r i j v (by omega)

theorem getIdx_setIdx_other_some : ∀ (es : JElems) (i j : Nat) (v w : JValue), i ≠ j →
    getIdx es j = some w → getIdx (setIdx es i v) j = some w
  | .nil, _, _, _, _, _, hg => by simp [getIdx] at hg
  | .cons u r, 0, 0, v, w, h, hg => absurd rfl h
  | .cons u r, 0, j + 1, v, w, h, hg => by
    simp only [setIdx, getIdx] at hg ⊢
    exact hg
  | .cons u r, i + 1, 0, v, w, h, hg => by
    simp only [setIdx, getIdx] at hg ⊢
    exact hg
  | .cons u r, i + 1, j + 1, v, w, h, hg => by
    simp only [setIdx, getIdx] at hg ⊢
    exact getIdx_setIdx_other_some r i j v w (by omega) hg

theorem setField_setField_same : ∀ (fs : JFields) (k : String) (a b : JValue),
    setField (setField fs k a) k b = setField fs k b
  | .nil, k, a, b => by simp [setField]
  | .cons k1 w r, k, a, b => by
    by_cases he : k1 = k
    · simp [setField, he]
    · simp only [setField, if_neg he]
      rw [setField_setField_same r k a b]

theorem setIdx_setIdx_same : ∀ (es : JElems) (i : Nat) (a b : JValue),
    setIdx (setIdx es i a) i b = setIdx es i b
  | .nil, 0, a, b => rfl
  | .nil, i + 1, a, b => by
    simp only [setIdx]
    rw [setIdx_setIdx_same .nil i a b]
  | .cons w r, 0, a, b => rfl
  | .cons w r, i + 1, a, b => by
    simp only [setIdx]
    rw [setIdx_setIdx_same r i a b]

theorem setField_getField_id : ∀ (fs : JFields) (k : String) (w : JValue),
    getField fs k = some w → setField fs k w = fs
  | .nil, k, w, h => by simp [getField] at h
  | .cons k1 u r, k, w, h => by
    by_cases he : k1 = k
    · simp only [getField, if_pos he] at h
      simp only [setField, if_pos he]
      rw [Option.some_inj] at h
      rw [h]
    · simp only [getField, if_neg he] at h
      simp only [setField, if_neg he]
      rw [setField_getField_id r k w h]

theorem setIdx_getIdx_id : ∀ (es : JElems) (i : Nat) (w : JValue),
    getIdx es i = some w → setIdx es i w = es
  | .nil, _, w, h => by simp [getIdx] at h
  | .cons u r, 0, w, h => by
    simp only [getIdx, Option.some_inj] at h
    simp [setIdx, h]
  | .cons u r, i + 1, w, h => by
    simp only [getIdx] at h
    simp only [setIdx]
    rw [setIdx_getIdx_id r i w h]

theorem jget_obj_def (fs : JFields) (k : String) (rest : List String) :
    jget (.obj fs) (k :: rest) = jget ((getField fs k).getD .undef) rest := rfl

theorem jset_obj_def (fs : JFields) (k : String) (rest : List String) (v : JValue) :
    jset (.obj fs) (k :: rest) v =
      .obj (setField fs k (jset ((getField fs k).getD .undef) rest v)) := rfl

theorem jget_scalar_def (p : JValue) (k : String) (rest : List String)
    (hp : (match p with | .obj _ => False | .arr _ => False | _ => True)) :
    jget p (k :: rest) = jget .undef rest := by
  cases p <;> first | rfl | exact absurd hp (by simp)



/-! ## Conditional unfolding lemmas for jget/jset/hasPath -/

theorem jget_arr_some (es : JElems) (k : String) (rest : List String) (i : Nat)
    (hseg : segToNat? k = some i) :
    jget (.arr es) (k :: rest) = jget ((getIdx es i).getD .undef) rest := by
  rw [jget_arr_def, hseg]

theorem jget_arr_none (es : JElems) (k : String) (rest : List String)
    (hseg : segToNat? k = none) :
    jget (.arr es) (k :: rest) = jget .undef rest := by
  rw [jget_arr_def, hseg]

theorem jset_arr_some (es : JElems) (k : String) (rest : List String) (v : JValue) (i : Nat)
    (hseg : segToNat? k = some i) :
    jset (.arr es) (k :: rest) v =
      .arr (setIdx es i (jset ((getIdx es i).getD .undef) rest v)) := by
  rw [jset_arr_def, hseg]

theorem jset_arr_none (es : JElems) (k : String) (rest : List String) (v : JValue)
    (hseg : segToNat? k = none) :
    jset (.arr es) (k :: rest) v = .arr es := by
  rw [jset_arr_def, hseg]

theorem jset_scalar_some (p : JValue) (k : String) (rest : List String) (v : JValue) (i : Nat)
    (hp : (match p with | .obj _ => False | .arr _ => False | _ => True))
    (hseg : segToNat? k = some i) :
    jset p (k :: rest) v = .arr (setIdx .nil i (jset .undef rest v)) := by
  rw [jset_scalar_def p k rest v hp, hseg]

theorem jset_scalar_none (p : JValue) (k : String) (rest : List String) (v : JValue)
    (hp : (match p with | .obj _ => False | .arr _ => False | _ => True))
    (hseg : segToNat? k = none) :
    jset p (k :: rest) v = .obj (.cons k (jset .undef rest v) .nil) := by
  rw [jset_scalar_def p k rest v hp, hseg]

theorem hasPath_obj_some (fs : JFields) (k : String) (rest : List String) (child : JValue)
    (hg : getField fs k = some child) :
    hasPath (.obj fs) (k :: rest) = hasPath child rest := by
  simp only [hasPath, hg]

theorem hasPath_obj_none (fs : JFields) (k : String) (rest : List String)
    (hg : getField fs k = none) :
    hasPath (.obj fs) (k :: rest) = false := by
  simp only [hasPath, hg]

theorem hasPath_arr_some (es : JElems) (k : String) (rest : List String) (i : Nat)
    (child : JValue) (hseg : segToNat? k = some i) (hg : getIdx es i = some child) :
    hasPath (.arr es) (k :: rest) = hasPath child rest := by
  simp only [hasPath, hseg, hg]

theorem setOk_obj (fs : JFields) (k : String) (rest : List String) :
    setOk (.obj fs) (k :: rest) = setOk ((getField fs k).getD .undef) rest := rfl

theorem setOk_arr_some (es : JElems) (k : String) (rest : List String) (i : Nat)
    (hseg : segToNat? k = some i) :
    setOk (.arr es) (k :: rest) = setOk ((getIdx es i).getD .undef) rest := by
  simp only [setOk, hseg]

theorem setOk_arr_none (es : JElems) (k : String) (rest : List String)
    (hseg : segToNat? k = none) :
    setOk (.arr es) (k :: rest) = false := by
  simp only [setOk, hseg]

/-! ## Frame lemmas -/

theorem jget_jset_same : ∀ (path : List String) (p v : JValue), setOk p path = true →
    jget (jset p path v) path = v := by
  intro path
  induction path with
  | nil => intro p v _; rw [jset_nil, jget_nil]
  | cons k rest ih =>
    intro p v hok
    cases p
    case obj fs =>
      rw [jset_obj_def, jget_obj_def, getField_setField_same]
      simp only [Option.getD_some]
      exact ih _ v hok
    case arr es =>
      cases hseg : segToNat? k with
      | some i =>
        have hok2 : setOk ((getIdx es i).getD .undef) rest = true := by
          rw [← setOk_arr_some es k rest i hseg]
          exact hok
        rw [jset_arr_some es k rest v i hseg, jget_arr_some _ k rest i hseg,
          getIdx_setIdx_same]
        simp only [Option.getD_some]
        exact ih _ v hok2
      | none =>
        exfalso
        rw [setOk_arr_none es k rest hseg] at hok
        exact Bool.noConfusion hok
    all_goals {
      cases hseg : segToNat? k with
      | some i =>
        rw [jset_scalar_some _ k rest v i (by simp) hseg, jget_arr_some _ k rest i hseg,
          getIdx_setIdx_same]
        simp only [Option.getD_some]
        exact ih .undef v hok
      | none =>
        rw [jset_scalar_none _ k rest v (by simp) hseg, jget_obj_def]
        simp only [getField, if_pos rfl, Option.getD_some]
        exact ih .undef v hok
    }

theorem jset_jget_id : ∀ (path : List String) (p : JValue), hasPath p path = true →
    jset p path (jget p path) = p := by
  intro path
  induction path with
  | nil => intro p _; rw [jget_nil, jset_nil]
  | cons k rest ih =>
    intro p h
    cases p
    case obj fs =>
      cases hg : getField fs k with
      | none =>
        exfalso
        rw [hasPath_obj_none fs k rest hg] at h
        exact Bool.noConfusion h
      | some child =>
        have h2 : hasPath child rest = true := by
          rw [← hasPath_obj_some fs k rest child hg]
          exact h
        rw [jget_obj_def, jset_obj_def, hg]
        simp only [Option.getD_some]
        rw [ih child h2, setField_getField_id fs k child hg]
    case arr es =>
      cases hseg : segToNat? k with
      | some i =>
        cases hg : getIdx es i with
        | none =>
          exfalso
          simp only [hasPath, hseg, hg] at h
          exact Bool.noConfusion h
        | some child =>
          have h2 : hasPath child rest = true := by
            rw [← hasPath_arr_some es k rest i child hseg hg]
            exact h
          rw [jget_arr_some es k rest i hseg, jset_arr_some es k rest _ i hseg, hg]
          simp only [Option.getD_some]
          rw [ih child h2, setIdx_getIdx_id es i child hg]
      | none =>
        exfalso
        simp only [hasPath, hseg] at h
        exact Bool.noConfusion h
    all_goals exact Bool.noConfusion h

theorem segAlias_symm (a b : String) : segAlias a b = segAlias b a := by
  unfold segAlias
  congr 1
  · simp [eq_comm]
  · cases hsa : segToNat? a <;> cases hsb : segToNat? b <;> simp [eq_comm]

theorem segAlias_of_idx (a b : String) (i : Nat) (ha : segToNat? a = some i)
    (hb : segToNat? b = some i) : segAlias a b = true := by
  unfold segAlias
  rw [ha, hb]
  simp

theorem noOverlap_parts (a b : String) (r s : List String)
    (h : noOverlap (a :: r) (b :: s) = true) :
    (segAlias a b && pathBelowA r s) = false ∧ (segAlias b a && pathBelowA s r) = false := by
  have hx : pathBelowA (a :: r) (b :: s) = false := by
    cases hpb : pathBelowA (a :: r) (b :: s)
    · rfl
    · exfalso
      rw [noOverlap, hpb] at h
      simp at h
  have hy : pathBelowA (b :: s) (a :: r) = false := by
    cases hpb : pathBelowA (b :: s) (a :: r)
    · rfl
    · exfalso
      rw [noOverlap, hpb] at h
      simp at h
  exact ⟨hx, hy⟩

theorem noOverlap_tails (a b : String) (r s : List String) (hal : segAlias a b = true)
    (h : noOverlap (a :: r) (b :: s) = true) : noOverlap r s = true := by
  obtain ⟨hx, hy⟩ := noOverlap_parts a b r s h
  rw [hal, Bool.true_and] at hx
  rw [segAlias_symm b a, hal, Bool.true_and] at hy
  rw [noOverlap, hx, hy]
  rfl

theorem segAlias_not_str (a b : String) (hal : segAlias a b = false) : a ≠ b := by
  intro he
  subst he
  simp [segAlias] at hal

theorem segAlias_not_idx (a b : String) (i j : Nat) (hal : segAlias a b = false)
    (ha : segToNat? a = some i) (hb : segToNat? b = some j) : i ≠ j := by
  intro he
  subst he
  rw [segAlias_of_idx a b i ha hb] at hal
  exact Bool.noConfusion hal


theorem segAlias_str (a b : String) (hab : a = b) : segAlias a b = true := by
  subst hab
  simp [segAlias]

/-- Frame: writing at a path that does not overlap the read path leaves the
read unchanged (alias-aware, unconditional). -/
theorem jget_jset_indep : ∀ (q p : List String) (x v : JValue), noOverlap p q = true →
    jget (jset x p v) q = jget x q := by
  intro q
  induction q with
  | nil =>
    intro p x v h
    exfalso
    simp [noOverlap, pathBelowA] at h
  | cons b s ih =>
    intro p x v h
    cases p with
    | nil =>
      exfalso
      simp [noOverlap, pathBelowA] at h
    | cons a r =>
      cases x
      case obj fs =>
        by_cases hab : a = b
        · subst hab
          have hno : noOverlap r s = true := noOverlap_tails a a r s (segAlias_str a a rfl) h
          rw [jset_obj_def, jget_obj_def, jget_obj_def, getField_setField_same]
          simp only [Option.getD_some]
          exact ih r _ v hno
        · rw [jset_obj_def, jget_obj_def, jget_obj_def,
            getField_setField_other fs a b _ hab]
      case arr es =>
        cases hsa : segToNat? a with
        | none => rw [jset_arr_none es a r v hsa]
        | some i =>
          cases hsb : segToNat? b with
          | none =>
            rw [jset_arr_some es a r v i hsa]
            rw [jget_arr_none _ b s hsb, jget_arr_none es b s hsb]
          | some j =>
            by_cases hij : i = j
            · subst hij
              have hal : segAlias a b = true := segAlias_of_idx a b i hsa hsb
              have hno : noOverlap r s = true := noOverlap_tails a b r s hal h
              rw [jset_arr_some es a r v i hsa, jget_arr_some _ b s i hsb,
                jget_arr_some es b s i hsb, getIdx_setIdx_same]
              simp only [Option.getD_some]
              exact ih r _ v hno
            · rw [jset_arr_some es a r v i hsa, jget_arr_some _ b s j hsb,
                jget_arr_some es b s j hsb, getIdx_setIdx_other es i j _ hij]
      all_goals {
        cases hsa : segToNat? a with
        | some i =>
          rw [jset_scalar_some _ a r v i (by simp) hsa]
          cases hsb : segToNat? b with
          | none =>
            rw [jget_arr_none _ b s hsb, jget_scalar_def _ b s (by simp)]
          | some j =>
            by_cases hij : i = j
            · subst hij
              have hal : segAlias a b = true := segAlias_of_idx a b i hsa hsb
              have hno : noOverlap r s = true := noOverlap_tails a b r s hal h
              rw [jget_arr_some _ b s i hsb, getIdx_setIdx_same]
              simp only [Option.getD_some]
              rw [jget_scalar_def _ b s (by simp)]
              exact ih r _ v hno
            · rw [jget_arr_some _ b s j hsb, getIdx_setIdx_other .nil i j _ hij,
                jget_scalar_def _ b s (by simp)]
              simp [getIdx]
        | none =>
          rw [jset_scalar_none _ a r v (by simp) hsa]
          by_cases hab : a = b
          · subst hab
            have hno : noOverlap r s = true := noOverlap_tails a a r s (segAlias_str a a rfl) h
            rw [jget_obj_def]
            simp only [getField, if_pos rfl, Option.getD_some]
            rw [jget_scalar_def _ a s (by simp)]
            exact ih r _ v hno
          · rw [jget_obj_def]
            simp only [getField, if_neg hab, Option.getD_none]
            rw [jget_scalar_def _ b s (by simp)]
      }


/-! ## Fingerprint decomposition and array-length sensitivity (C5) -/

/-- The fingerprint contributions of the attribute loop, with the props
evolving exactly as in `templatizeAll`. -/
def attrsArrEntries : List String → JValue → List String
  | [], _ => []
  | attr :: rest, p =>
    arrEntries ("a." ++ attr) (jget p (splitPath attr)) ++
      attrsArrEntries rest
        (jset p (splitPath attr) (phVal ("a." ++ attr) (jget p (splitPath attr))))

/-- The same contributions, all read from the original props. -/
def flatArrEntries : List String → JValue → List String
  | [], _ => []
  | attr :: rest, p =>
    arrEntries ("a." ++ attr) (jget p (splitPath attr)) ++ flatArrEntries rest p

theorem templatizeAll_addl : ∀ (attrs : List String) (p : JValue)
    (t : List (String × String)) (a : List String),
    (templatizeAll attrs p t a).2.2 = a ++ attrsArrEntries attrs p
  | [], p, t, a => by simp [templatizeAll, attrsArrEntries]
  | attr :: rest, p, t, a => by
    simp only [templatizeAll, templatizeStep_eq, attrsArrEntries]
    rw [templatizeAll_addl rest _ _ _]
    simp [List.append_assoc]

theorem flatArrEntries_congr : ∀ (attrs : List String) (p q : JValue),
    (∀ attr ∈ attrs, jget p (splitPath attr) = jget q (splitPath attr)) →
    flatArrEntries attrs p = flatArrEntries attrs q
  | [], _, _, _ => rfl
  | attr :: rest, p, q, h => by
    simp only [flatArrEntries]
    rw [h attr (by simp), flatArrEntries_congr rest p q (fun b hb => h b (by simp [hb]))]

theorem flatArrEntries_frame : ∀ (attrs : List String) (p : JValue) (path : List String)
    (w : JValue), (attrs.all (fun b => noOverlap path (splitPath b))) = true →
    flatArrEntries attrs (jset p path w) = flatArrEntries attrs p := by
  intro attrs p path w h
  apply flatArrEntries_congr
  intro attr hattr
  have hb : noOverlap path (splitPath attr) = true := by
    rw [List.all_eq_true] at h
    exact h attr hattr
  exact jget_jset_indep (splitPath attr) path p w hb

theorem attrsIndep_tail (a : String) (rest : List String)
    (h : attrsIndep (a :: rest) = true) : attrsIndep rest = true := by
  simp only [attrsIndep, Bool.and_eq_true] at h
  exact h.2

theorem attrsIndep_head (a : String) (rest : List String)
    (h : attrsIndep (a :: rest) = true) :
    (rest.all (fun b => noOverlap (splitPath a) (splitPath b))) = true := by
  simp only [attrsIndep, Bool.and_eq_true] at h
  exact h.1

theorem attrsArrEntries_indep : ∀ (attrs : List String) (p : JValue),
    attrsIndep attrs = true → attrsArrEntries attrs p = flatArrEntries attrs p
  | [], p, _ => rfl
  | attr :: rest, p, h => by
    simp only [attrsArrEntries, flatArrEntries]
    rw [attrsArrEntries_indep rest _ (attrsIndep_tail attr rest h),
      flatArrEntries_frame rest p (splitPath attr) _ (attrsIndep_head attr rest h)]

theorem noOverlap_symm (p q : List String) : noOverlap p q = noOverlap q p := by
  simp only [noOverlap]
  rw [Bool.or_comm]

theorem attrsIndep_append_right : ∀ (l1 l2 : List String),
    attrsIndep (l1 ++ l2) = true → attrsIndep l2 = true
  | [], _, h => h
  | a :: l1, l2, h => attrsIndep_append_right l1 l2 (attrsIndep_tail a _ h)

theorem attrsIndep_pre_x : ∀ (pre : List String) (x : String) (post : List String),
    attrsIndep (pre ++ x :: post) = true →
    ∀ a ∈ pre, noOverlap (splitPath a) (splitPath x) = true
  | [], _, _, _, a, ha => absurd ha (by simp)
  | b :: pre, x, post, h, a, ha => by
    rcases List.mem_cons.mp ha with he | hm
    · subst he
      have := attrsIndep_head a _ h
      rw [List.all_eq_true] at this
      exact this x (by simp)
    · exact attrsIndep_pre_x pre x post (attrsIndep_tail b _ h) a hm

/-! ## Decimal divergence in the comma join -/

def joinRest : List String → List Char
  | [] => []
  | x :: xs => ',' :: (joinComma (x :: xs)).data

theorem joinComma_cons_data (e : String) (r : List String) :
    (joinComma (e :: r)).data = e.data ++ joinRest r := by
  cases r with
  | nil => simp [joinComma, joinRest]
  | cons y ys =>
    show (e ++ "," ++ joinComma (y :: ys)).data = _
    rw [String.data_append, String.data_append]
    simp [joinRest]

theorem joinRest_commaOk (r : List String) :
    joinRest r = [] ∨ (joinRest r).head? = some ',' := by
  cases r with
  | nil => exact Or.inl rfl
  | cons y ys => exact Or.inr rfl

theorem digits_append_inj : ∀ (xs ys s t : List Char),
    (∀ c ∈ xs, c.isDigit = true) → (∀ c ∈ ys, c.isDigit = true) →
    (s = [] ∨ s.head? = some ',') → (t = [] ∨ t.head? = some ',') →
    xs ++ s = ys ++ t → xs = ys
  | [], [], _, _, _, _, _, _, _ => rfl
  | [], y :: ys, s, t, _, hy, hs, _, h => by
    exfalso
    simp only [List.nil_append] at h
    have hyd : y.isDigit = true := hy y (by simp)
    rcases hs with he | hh
    · subst he
      exact List.noConfusion h
    · rw [h] at hh
      simp only [List.cons_append, List.head?_cons, Option.some_inj] at hh
      rw [hh] at hyd
      exact Bool.noConfusion hyd
  | x :: xs, [], s, t, hx, _, _, ht, h => by
    exfalso
    simp only [List.nil_append] at h
    have hxd : x.isDigit = true := hx x (by simp)
    rcases ht with he | hh
    · subst he
      simp at h
    · rw [← h] at hh
      simp only [List.cons_append, List.head?_cons, Option.some_inj] at hh
      rw [hh] at hxd
      exact Bool.noConfusion hxd
  | x :: xs, y :: ys, s, t, hx, hy, hs, ht, h => by
    simp only [List.cons_append, List.cons.injEq] at h
    obtain ⟨hxy, hrest⟩ := h
    have := digits_append_inj xs ys s t (fun c hc => hx c (by simp [hc]))
      (fun c hc => hy c (by simp [hc])) hs ht hrest
    rw [hxy, this]

theorem strAppend_left_cancel (x y z : String) (h : x ++ y = x ++ z) : y = z := by
  have hd : x.data ++ y.data = x.data ++ z.data := by
    rw [← String.data_append, ← String.data_append, h]
  have := List.append_cancel_left hd
  cases y
  cases z
  simpa using congrArg String.mk this

theorem joinComma_pre_cancel : ∀ (pre : List String) (l1 l2 : List String),
    l1 ≠ [] → l2 ≠ [] → joinComma (pre ++ l1) = joinComma (pre ++ l2) →
    joinComma l1 = joinComma l2
  | [], _, _, _, _, h => h
  | a :: pre, l1, l2, h1, h2, h => by
    have hne1 : pre ++ l1 ≠ [] := by
      intro he
      rcases List.append_eq_nil.mp he with ⟨_, he2⟩
      exact h1 he2
    have hne2 : pre ++ l2 ≠ [] := by
      intro he
      rcases List.append_eq_nil.mp he with ⟨_, he2⟩
      exact h2 he2
    have e1 : joinComma (a :: (pre ++ l1)) = a ++ "," ++ joinComma (pre ++ l1) := by
      cases hc : pre ++ l1 with
      | nil => exact absurd hc hne1
      | cons z zs => rfl
    have e2 : joinComma (a :: (pre ++ l2)) = a ++ "," ++ joinComma (pre ++ l2) := by
      cases hc : pre ++ l2 with
      | nil => exact absurd hc hne2
      | cons z zs => rfl
    simp only [List.cons_append] at h
    rw [e1, e2] at h
    exact joinComma_pre_cancel pre l1 l2 h1 h2
      (strAppend_left_cancel (a ++ ",") _ _ h)

/-- Two fingerprint lists that agree on a prefix and then record the same
array path with different lengths have different comma joins. -/
theorem joinComma_len_ne (pre : List String) (k : String) (n1 n2 : Nat)
    (r1 r2 : List String) (hne : n1 ≠ n2) :
    joinComma (pre ++ (k ++ "_" ++ natStr n1) :: r1) ≠
      joinComma (pre ++ (k ++ "_" ++ natStr n2) :: r2) := by
  intro h
  have h2 : joinComma ((k ++ "_" ++ natStr n1) :: r1) =
      joinComma ((k ++ "_" ++ natStr n2) :: r2) :=
    joinComma_pre_cancel pre _ _ (by simp) (by simp) h
  have h3 : (k ++ "_" ++ natStr n1).data ++ joinRest r1 =
      (k ++ "_" ++ natStr n2).data ++ joinRest r2 := by
    rw [← joinComma_cons_data, ← joinComma_cons_data, h2]
  have h4 : k.data ++ ("_".data ++ ((natStr n1).data ++ joinRest r1)) =
      k.data ++ ("_".data ++ ((natStr n2).data ++ joinRest r2)) := by
    simpa only [String.data_append, List.append_assoc] using h3
  have h5 : (natStr n1).data ++ joinRest r1 = (natStr n2).data ++ joinRest r2 :=
    List.append_cancel_left (List.append_cancel_left h4)
  have h6 : (natStr n1).data = (natStr n2).data := by
    rw [natStr_data, natStr_data] at h5 ⊢
    exact digits_append_inj _ _ _ _ (decStr_mem_isDigit n1) (decStr_mem_isDigit n2)
      (joinRest_commaOk r1) (joinRest_commaOk r2) h5
  have h7 : natStr n1 = natStr n2 := by
    cases hm : natStr n1
    cases hn : natStr n2
    rw [hm, hn] at h6
    simpa using congrArg String.mk h6
  exact hne (natStr_inj h7)


theorem flatArrEntries_append : ∀ (l1 l2 : List String) (p : JValue),
    flatArrEntries (l1 ++ l2) p = flatArrEntries l1 p ++ flatArrEntries l2 p
  | [], _, _ => rfl
  | a :: l1, l2, p => by
    show arrEntries ("a." ++ a) (jget p (splitPath a)) ++ flatArrEntries (l1 ++ l2) p = _
    rw [flatArrEntries_append l1 l2 p, ← List.append_assoc]
    rfl

/-- C5: Array-shape sensitivity. Whenever the configured key generator
returns the same non-null key for two props trees that differ only in the
length of the array stored at one template attribute (the template
attribute paths being pairwise independent and the array path writable),
the derived cache keys differ, both calls are misses that invoke the host
renderer, and conversely any props tree of the same structural shape as
the first yields the same cache key. -/
theorem C5_array_shape_sensitivity_amended
    (g : GlobalConfig) (cfg : CmpConfig) (cmpName rootID1 rootID2 : String)
    (renderFn : JValue → String) (p1 p2 : JValue)
    (store : List (String × CacheEntry)) (queue : List CacheEvent) (gk : JValue)
    (attrsPre attrsPost : List String) (attrX : String) (es1 es2 : JElems)
    (hen : g.enabled = true)
    (hreg : List.lookup cmpName g.components = some cfg)
    (hattrs : cfg.templateAttrs = attrsPre ++ attrX :: attrsPost)
    (hindep : attrsIndep cfg.templateAttrs = true)
    (hsetok : setOk p1 (splitPath attrX) = true)
    (hv1 : jget p1 (splitPath attrX) = JValue.arr es1)
    (hlen : elemsLen es1 ≠ elemsLen es2)
    (hp2 : p2 = jset p1 (splitPath attrX) (JValue.arr es2))
    (hgen1 : cfg.cacheKeyGen p1 = .val gk)
    (hgen2 : cfg.cacheKeyGen p2 = .val gk)
    (hnn : gk ≠ JValue.jnull)
    (hmiss1 : List.lookup (cacheKeyOf cfg cmpName (jsToString gk) p1) store = none)
    (hmiss2 : List.lookup (cacheKeyOf cfg cmpName (jsToString gk) p2) store = none) :
    cacheKeyOf cfg cmpName (jsToString gk) p1 ≠
      cacheKeyOf cfg cmpName (jsToString gk) p2 ∧
    (handle g cmpName rootID1 renderFn p1 store queue).phase = RenderPhase.miss ∧
    (handle g cmpName rootID2 renderFn p2
      (handle g cmpName rootID1 renderFn p1 store queue).store
      (handle g cmpName rootID1 renderFn p1 store queue).queue).phase = RenderPhase.miss ∧
    (handle g cmpName rootID2 renderFn p2
      (handle g cmpName rootID1 renderFn p1 store queue).store
      (handle g cmpName rootID1 renderFn p1 store queue).queue).rendererInvoked = true ∧
    (∀ q : JValue, sameShape p1 q = true →
      cacheKeyOf cfg cmpName (jsToString gk) p1 = cacheKeyOf cfg cmpName (jsToString gk) q) := by
  have hd1 : (templatizeAll cfg.templateAttrs p1 [] []).2.2 =
      flatArrEntries cfg.templateAttrs p1 := by
    rw [templatizeAll_addl, attrsArrEntries_indep _ _ hindep, List.nil_append]
  have hd2 : (templatizeAll cfg.templateAttrs p2 [] []).2.2 =
      flatArrEntries cfg.templateAttrs p2 := by
    rw [templatizeAll_addl, attrsArrEntries_indep _ _ hindep, List.nil_append]
  have hkx : jget p2 (splitPath attrX) = JValue.arr es2 := by
    rw [hp2]
    exact jget_jset_same (splitPath attrX) p1 (JValue.arr es2) hsetok
  have hpre : flatArrEntries attrsPre p2 = flatArrEntries attrsPre p1 := by
    rw [hp2]
    apply flatArrEntries_congr
    intro a ha
    refine jget_jset_indep (splitPath a) (splitPath attrX) p1 (JValue.arr es2) ?_
    rw [noOverlap_symm]
    exact attrsIndep_pre_x attrsPre attrX attrsPost (hattrs ▸ hindep) a ha
  have hx1 : flatArrEntries (attrX :: attrsPost) p1 =
      ("a." ++ attrX ++ "_" ++ natStr (elemsLen es1)) ::
        (arrEntriesE ("a." ++ attrX) 0 es1 ++ flatArrEntries attrsPost p1) := by
    show arrEntries ("a." ++ attrX) (jget p1 (splitPath attrX)) ++
      flatArrEntries attrsPost p1 = _
    rw [hv1]
    rfl
  have hx2 : flatArrEntries (attrX :: attrsPost) p2 =
      ("a." ++ attrX ++ "_" ++ natStr (elemsLen es2)) ::
        (arrEntriesE ("a." ++ attrX) 0 es2 ++ flatArrEntries attrsPost p2) := by
    show arrEntries ("a." ++ attrX) (jget p2 (splitPath attrX)) ++
      flatArrEntries attrsPost p2 = _
    rw [hkx]
    rfl
  have hne : cacheKeyOf cfg cmpName (jsToString gk) p1 ≠
      cacheKeyOf cfg cmpName (jsToString gk) p2 := by
    intro h
    simp only [cacheKeyOf] at h
    rw [hd1, hd2, hattrs, flatArrEntries_append, flatArrEntries_append, hpre,
      hx1, hx2] at h
    exact joinComma_len_ne (flatArrEntries attrsPre p1) ("a." ++ attrX)
      (elemsLen es1) (elemsLen es2) _ _ hlen
      (strAppend_left_cancel (cmpName ++ ":" ++ jsToString gk ++ ":") _ _ h)
  have hc1 : handle g cmpName rootID1 renderFn p1 store queue =
      { result := .ok (missParts cfg p1 renderFn).1,
        props := (missParts cfg p1 renderFn).2,
        store := (cacheKeyOf cfg cmpName (jsToString gk) p1,
          missEntry cfg p1 renderFn rootID1) :: store,
        queue := if g.hasEventCallback then queue ++ [⟨.miss, cmpName⟩] else queue,
        rendererInvoked := true, storeQueried := true, phase := .miss } := by
    rw [handle_wrapped g cfg cmpName rootID1 renderFn p1 store queue hen hreg]
    exact mount_miss cfg cmpName rootID1 renderFn g.hasEventCallback p1 store queue gk
      hgen1 hnn hmiss1
  have hlook2 : List.lookup (cacheKeyOf cfg cmpName (jsToString gk) p2)
      ((cacheKeyOf cfg cmpName (jsToString gk) p1,
        missEntry cfg p1 renderFn rootID1) :: store) = none := by
    have hb : (cacheKeyOf cfg cmpName (jsToString gk) p2 ==
        cacheKeyOf cfg cmpName (jsToString gk) p1) = false := by
      rw [beq_eq_false_iff_ne]
      exact Ne.symm hne
    simp [List.lookup, hb, hmiss2]
  have hc2 : handle g cmpName rootID2 renderFn p2
      ((cacheKeyOf cfg cmpName (jsToString gk) p1,
        missEntry cfg p1 renderFn rootID1) :: store)
      (if g.hasEventCallback then queue ++ [⟨.miss, cmpName⟩] else queue) =
      { result := .ok (missParts cfg p2 renderFn).1,
        props := (missParts cfg p2 renderFn).2,
        store := (cacheKeyOf cfg cmpName (jsToString gk) p2,
          missEntry cfg p2 renderFn rootID2) ::
          (cacheKeyOf cfg cmpName (jsToString gk) p1,
            missEntry cfg p1 renderFn rootID1) :: store,
        queue := if g.hasEventCallback then
            (if g.hasEventCallback then queue ++ [⟨.miss, cmpName⟩] else queue) ++
              [⟨.miss, cmpName⟩]
          else (if g.hasEventCallback then queue ++ [⟨.miss, cmpName⟩] else queue),
        rendererInvoked := true, storeQueried := true, phase := .miss } := by
    rw [handle_wrapped g cfg cmpName rootID2 renderFn p2 _ _ hen hreg]
    exact mount_miss cfg cmpName rootID2 renderFn g.hasEventCallback p2 _ _ gk
      hgen2 hnn hlook2
  refine ⟨hne, ?_, ?_, ?_, fun q hq => cacheKeyOf_shape cfg cmpName (jsToString gk) p1 q hq⟩
  · rw [hc1]
  · rw [hc1]
    show (handle g cmpName rootID2 renderFn p2
      ((cacheKeyOf cfg cmpName (jsToString gk) p1,
        missEntry cfg p1 renderFn rootID1) :: store)
      (if g.hasEventCallback then queue ++ [⟨.miss, cmpName⟩] else queue)).phase =
        RenderPhase.miss
    rw [hc2]
  · rw [hc1]
    show (handle g cmpName rootID2 renderFn p2
      ((cacheKeyOf cfg cmpName (jsToString gk) p1,
        missEntry cfg p1 renderFn rootID1) :: store)
      (if g.hasEventCallback then queue ++ [⟨.miss, cmpName⟩] else queue)).rendererInvoked =
        true
    rw [hc2]

def es5a : JElems := .cons (.num 5) (.cons (.num 6) .nil)

def es5b : JElems := .cons (.num 7) .nil

def props5c : JValue := .obj (.cons "text" (.arr es5a) .nil)

/-- Witness for C5 at a concrete instance: two-element vs one-element array
under the single template attribute "text" of the registered component. -/
theorem C5_array_shape_sensitivity_amended_witness :
    cacheKeyOf cfgTemplate "C" (jsToString (JValue.str "_defaultKey")) props5c ≠
      cacheKeyOf cfgTemplate "C" (jsToString (JValue.str "_defaultKey"))
        (jset props5c (splitPath "text") (JValue.arr es5b)) ∧
    (handle gTemplate "C" "r1" renderX props5c [] []).phase = RenderPhase.miss ∧
    (handle gTemplate "C" "r2" renderX (jset props5c (splitPath "text") (JValue.arr es5b))
      (handle gTemplate "C" "r1" renderX props5c [] []).store
      (handle gTemplate "C" "r1" renderX props5c [] []).queue).phase = RenderPhase.miss :=
  have h := C5_array_shape_sensitivity_amended gTemplate cfgTemplate "C" "r1" "r2"
    renderX props5c (jset props5c (splitPath "text") (JValue.arr es5b)) [] []
    (JValue.str "_defaultKey") [] [] "text" es5a es5b
    rfl rfl rfl (by decide) (by decide) (by decide) (by decide) rfl rfl rfl
    (by decide) rfl rfl
  ⟨h.1, h.2.1, h.2.2.1⟩




/-! ## hasPath frame lemmas -/

theorem hasPath_nil : ∀ (x : JValue), hasPath x [] = true := by
  intro x
  cases x <;> rfl

theorem hasPath_scalar (p : JValue) (k : String) (rest : List String)
    (hp : (match p with | .obj _ => False | .arr _ => False | _ => True)) :
    hasPath p (k :: rest) = false := by
  cases p <;> first | rfl | exact absurd hp (by simp)

theorem hasPath_arr_segnone (es : JElems) (k : String) (rest : List String)
    (hseg : segToNat? k = none) : hasPath (.arr es) (k :: rest) = false := by
  simp only [hasPath, hseg]

theorem hasPath_arr_idxnone (es : JElems) (k : String) (rest : List String) (i : Nat)
    (hseg : segToNat? k = some i) (hg : getIdx es i = none) :
    hasPath (.arr es) (k :: rest) = false := by
  simp only [hasPath, hseg, hg]

theorem getIdx_setIdx_other_full : ∀ (es : JElems) (i j : Nat) (w c : JValue), i ≠ j →
    getIdx es i = some c → getIdx (setIdx es i w) j = getIdx es j
  | .nil, i, _, _, _, _, hg => by simp [getIdx] at hg
  | .cons u r, 0, 0, w, c, hij, hg => absurd rfl hij
  | .cons u r, 0, j + 1, w, c, hij, hg => by simp only [setIdx, getIdx]
  | .cons u r, i + 1, 0, w, c, hij, hg => by simp only [setIdx, getIdx]
  | .cons u r, i + 1, j + 1, w, c, hij, hg => by
    simp only [setIdx, getIdx] at hg ⊢
    exact getIdx_setIdx_other_full r i j w c (by omega) hg

theorem setOk_of_hasPath : ∀ (path : List String) (x : JValue),
    hasPath x path = true → setOk x path = true := by
  intro path
  induction path with
  | nil => intro x _; cases x <;> rfl
  | cons k rest ih =>
    intro x hp
    cases x
    case obj fs =>
      cases hg : getField fs k with
      | none =>
        rw [hasPath_obj_none fs k rest hg] at hp
        exact Bool.noConfusion hp
      | some c =>
        rw [hasPath_obj_some fs k rest c hg] at hp
        rw [setOk_obj, hg]
        exact ih c hp
    case arr es =>
      cases hseg : segToNat? k with
      | none =>
        rw [hasPath_arr_segnone es k rest hseg] at hp
        exact Bool.noConfusion hp
      | some i =>
        cases hg : getIdx es i with
        | none =>
          rw [hasPath_arr_idxnone es k rest i hseg hg] at hp
          exact Bool.noConfusion hp
        | some c =>
          rw [hasPath_arr_some es k rest i c hseg hg] at hp
          rw [setOk_arr_some es k rest i hseg, hg]
          exact ih c hp
    all_goals {
      rw [hasPath_scalar _ k rest (by simp)] at hp
      exact Bool.noConfusion hp
    }

theorem hasPath_jset_self : ∀ (path : List String) (x v : JValue),
    hasPath x path = true → hasPath (jset x path v) path = true := by
  intro path
  induction path with
  | nil => intro x v _; rw [jset_nil]; exact hasPath_nil v
  | cons k rest ih =>
    intro x v hp
    cases x
    case obj fs =>
      cases hg : getField fs k with
      | none =>
        rw [hasPath_obj_none fs k rest hg] at hp
        exact Bool.noConfusion hp
      | some c =>
        rw [hasPath_obj_some fs k rest c hg] at hp
        rw [jset_obj_def, hg]
        simp only [Option.getD_some]
        rw [hasPath_obj_some _ k rest _ (getField_setField_same fs k _)]
        exact ih c v hp
    case arr es =>
      cases hseg : segToNat? k with
      | none =>
        rw [hasPath_arr_segnone es k rest hseg] at hp
        exact Bool.noConfusion hp
      | some i =>
        cases hg : getIdx es i with
        | none =>
          rw [hasPath_arr_idxnone es k rest i hseg hg] at hp
          exact Bool.noConfusion hp
        | some c =>
          rw [hasPath_arr_some es k rest i c hseg hg] at hp
          rw [jset_arr_some es k rest v i hseg, hg]
          simp only [Option.getD_some]
          rw [hasPath_arr_some _ k rest i _ hseg (getIdx_setIdx_same es i _)]
          exact ih c v hp
    all_goals {
      rw [hasPath_scalar _ k rest (by simp)] at hp
      exact Bool.noConfusion hp
    }

/-- Frame: a write along an existing, non-overlapping path does not change
whether another path exists. -/
theorem hasPath_jset_indep : ∀ (q p : List String) (x v : JValue),
    hasPath x p = true → noOverlap p q = true →
    hasPath (jset x p v) q = hasPath x q := by
  intro q
  induction q with
  | nil =>
    intro p x v _ hno
    exfalso
    simp [noOverlap, pathBelowA] at hno
  | cons b s ih =>
    intro p x v hp hno
    cases p with
    | nil =>
      exfalso
      simp [noOverlap, pathBelowA] at hno
    | cons a r =>
      cases x
      case obj fs =>
        cases hg : getField fs a with
        | none =>
          rw [hasPath_obj_none fs a r hg] at hp
          exact Bool.noConfusion hp
        | some c =>
          rw [hasPath_obj_some fs a r c hg] at hp
          rw [jset_obj_def, hg]
          simp only [Option.getD_some]
          by_cases hab : a = b
          · subst hab
            have hno2 : noOverlap r s = true :=
              noOverlap_tails a a r s (segAlias_str a a rfl) hno
            rw [hasPath_obj_some _ a s _ (getField_setField_same fs a _),
              hasPath_obj_some fs a s c hg]
            exact ih r c v hp hno2
          · cases hg2 : getField fs b with
            | none =>
              rw [hasPath_obj_none _ b s
                  (by rw [getField_setField_other fs a b _ hab]; exact hg2),
                hasPath_obj_none fs b s hg2]
            | some c2 =>
              rw [hasPath_obj_some _ b s c2
                  (by rw [getField_setField_other fs a b _ hab]; exact hg2),
                hasPath_obj_some fs b s c2 hg2]
      case arr es =>
        cases hsa : segToNat? a with
        | none =>
          rw [hasPath_arr_segnone es a r hsa] at hp
          exact Bool.noConfusion hp
        | some i =>
          cases hg : getIdx es i with
          | none =>
            rw [hasPath_arr_idxnone es a r i hsa hg] at hp
            exact Bool.noConfusion hp
          | some c =>
            rw [hasPath_arr_some es a r i c hsa hg] at hp
            rw [jset_arr_some es a r v i hsa, hg]
            simp only [Option.getD_some]
            cases hsb : segToNat? b with
            | none =>
              rw [hasPath_arr_segnone _ b s hsb, hasPath_arr_segnone es b s hsb]
            | some j =>
              by_cases hij : i = j
              · subst hij
                have hal : segAlias a b = true := segAlias_of_idx a b i hsa hsb
                have hno2 : noOverlap r s = true := noOverlap_tails a b r s hal hno
                rw [hasPath_arr_some _ b s i _ hsb (getIdx_setIdx_same es i _),
                  hasPath_arr_some es b s i c hsb hg]
                exact ih r c v hp hno2
              · cases hg2 : getIdx es j with
                | none =>
                  rw [hasPath_arr_idxnone _ b s j hsb
                      (by rw [getIdx_setIdx_other_full es i j _ c hij hg]; exact hg2),
                    hasPath_arr_idxnone es b s j hsb hg2]
                | some c2 =>
                  rw [hasPath_arr_some _ b s j c2 hsb
                      (by rw [getIdx_setIdx_other_full es i j _ c hij hg]; exact hg2),
                    hasPath_arr_some es b s j c2 hsb hg2]
      all_goals {
        rw [hasPath_scalar _ a r (by simp)] at hp
        exact Bool.noConfusion hp
      }


/-! ## The per-attribute fold shared by templatize and restore -/

/-- Both the templatize `forEach` and the restore `forEach` read the value
at each attribute path and write a function of it back at the same path. -/
def foldAttrs (f : String → JValue → JValue) : List String → JValue → JValue
  | [], p => p
  | attr :: rest, p =>
    foldAttrs f rest (jset p (splitPath attr) (f attr (jget p (splitPath attr))))

theorem templatizeAll_fst : ∀ (attrs : List String) (p : JValue)
    (t : List (String × String)) (a : List String),
    (templatizeAll attrs p t a).1 =
      foldAttrs (fun b w => phVal ("a." ++ b) w) attrs p
  | [], _, _, _ => rfl
  | attr :: rest, p, t, a => by
    simp only [templatizeAll, templatizeStep_eq]
    exact templatizeAll_fst rest _ _ _

theorem restoreAllProps_fold : ∀ (attrs : List String) (p : JValue)
    (table : List (String × String)),
    restoreAllProps attrs p table =
      foldAttrs (fun b w => restoreAttr ("a." ++ b) w table) attrs p
  | [], _, _ => rfl
  | attr :: rest, p, table => restoreAllProps_fold rest _ table

theorem jget_foldAttrs_indep : ∀ (attrs : List String) (f : String → JValue → JValue)
    (x : JValue) (q : List String),
    (∀ a ∈ attrs, noOverlap (splitPath a) q = true) →
    jget (foldAttrs f attrs x) q = jget x q
  | [], _, _, _, _ => rfl
  | attr :: rest, f, x, q, h => by
    show jget (foldAttrs f rest _) q = _
    rw [jget_foldAttrs_indep rest f _ q (fun b hb => h b (by simp [hb])),
      jget_jset_indep q (splitPath attr) x _ (h attr (by simp))]

theorem hasPath_foldAttrs_indep : ∀ (attrs : List String) (f : String → JValue → JValue)
    (x : JValue) (q : List String),
    attrsIndep attrs = true →
    (∀ a ∈ attrs, hasPath x (splitPath a) = true) →
    (∀ a ∈ attrs, noOverlap (splitPath a) q = true) →
    hasPath x q = true →
    hasPath (foldAttrs f attrs x) q = true
  | [], _, _, _, _, _, _, hq => hq
  | attr :: rest, f, x, q, hind, hhp, hno, hq => by
    show hasPath (foldAttrs f rest
      (jset x (splitPath attr) (f attr (jget x (splitPath attr))))) q = true
    have hstep : ∀ a ∈ rest, hasPath
        (jset x (splitPath attr) (f attr (jget x (splitPath attr)))) (splitPath a) = true := by
      intro a ha
      have hoa : noOverlap (splitPath attr) (splitPath a) = true := by
        have := attrsIndep_head attr rest hind
        rw [List.all_eq_true] at this
        exact this a ha
      rw [hasPath_jset_indep (splitPath a) (splitPath attr) x _ (hhp attr (by simp)) hoa]
      exact hhp a (by simp [ha])
    refine hasPath_foldAttrs_indep rest f _ q (attrsIndep_tail attr rest hind) hstep
      (fun a ha => hno a (by simp [ha])) ?_
    rw [hasPath_jset_indep q (splitPath attr) x _ (hhp attr (by simp)) (hno attr (by simp))]
    exact hq

theorem hasPath_foldAttrs_all : ∀ (attrs : List String) (f : String → JValue → JValue)
    (x : JValue),
    attrsIndep attrs = true →
    (∀ a ∈ attrs, hasPath x (splitPath a) = true) →
    ∀ b ∈ attrs, hasPath (foldAttrs f attrs x) (splitPath b) = true
  | [], _, _, _, _, b, hb => absurd hb (by simp)
  | attr :: rest, f, x, hind, hhp, b, hb => by
    show hasPath (foldAttrs f rest
      (jset x (splitPath attr) (f attr (jget x (splitPath attr))))) (splitPath b) = true
    have hstep : ∀ a ∈ rest, hasPath
        (jset x (splitPath attr) (f attr (jget x (splitPath attr)))) (splitPath a) = true := by
      intro a ha
      have hoa : noOverlap (splitPath attr) (splitPath a) = true := by
        have := attrsIndep_head attr rest hind
        rw [List.all_eq_true] at this
        exact this a ha
      rw [hasPath_jset_indep (splitPath a) (splitPath attr) x _ (hhp attr (by simp)) hoa]
      exact hhp a (by simp [ha])
    rcases List.mem_cons.mp hb with he | hm
    · subst he
      refine hasPath_foldAttrs_indep rest f _ (splitPath b)
        (attrsIndep_tail b rest hind) hstep ?_ ?_
      · intro a ha
        rw [noOverlap_symm]
        have := attrsIndep_head b rest hind
        rw [List.all_eq_true] at this
        exact this a ha
      · exact hasPath_jset_self (splitPath b) x _ (hhp b (by simp))
    · exact hasPath_foldAttrs_all rest f _ (attrsIndep_tail attr rest hind) hstep b hm

theorem jget_foldAttrs_at : ∀ (attrs : List String) (f : String → JValue → JValue)
    (x : JValue),
    attrsIndep attrs = true →
    (∀ a ∈ attrs, hasPath x (splitPath a) = true) →
    ∀ b ∈ attrs, jget (foldAttrs f attrs x) (splitPath b) = f b (jget x (splitPath b))
  | [], _, _, _, _, b, hb => absurd hb (by simp)
  | attr :: rest, f, x, hind, hhp, b, hb => by
    show jget (foldAttrs f rest
      (jset x (splitPath attr) (f attr (jget x (splitPath attr))))) (splitPath b) = _
    have hstep : ∀ a ∈ rest, hasPath
        (jset x (splitPath attr) (f attr (jget x (splitPath attr)))) (splitPath a) = true := by
      intro a ha
      have hoa : noOverlap (splitPath attr) (splitPath a) = true := by
        have := attrsIndep_head attr rest hind
        rw [List.all_eq_true] at this
        exact this a ha
      rw [hasPath_jset_indep (splitPath a) (splitPath attr) x _ (hhp attr (by simp)) hoa]
      exact hhp a (by simp [ha])
    rcases List.mem_cons.mp hb with he | hm
    · subst he
      rw [jget_foldAttrs_indep rest f _ (splitPath b) ?nov]
      case nov =>
        intro a ha
        rw [noOverlap_symm]
        have := attrsIndep_head b rest hind
        rw [List.all_eq_true] at this
        exact this a ha
      exact jget_jset_same (splitPath b) x _
        (setOk_of_hasPath (splitPath b) x (hhp b (by simp)))
    · rw [jget_foldAttrs_at rest f _ (attrsIndep_tail attr rest hind) hstep b hm,
        jget_jset_indep (splitPath b) (splitPath attr) x _ ?noo]
      case noo =>
        have := attrsIndep_head attr rest hind
        rw [List.all_eq_true] at this
        exact this b hm

/-! ## The lookup table built by the templatize loop -/

/-- The leaf table contributions of every attribute, all read from the
original props. -/
def flatLeafEntries : List String → JValue → List (String × String)
  | [], _ => []
  | attr :: rest, p =>
    leafEntries ("a." ++ attr) (jget p (splitPath attr)) ++ flatLeafEntries rest p

theorem flatLeafEntries_congr : ∀ (attrs : List String) (p q : JValue),
    (∀ attr ∈ attrs, jget p (splitPath attr) = jget q (splitPath attr)) →
    flatLeafEntries attrs p = flatLeafEntries attrs q
  | [], _, _, _ => rfl
  | attr :: rest, p, q, h => by
    simp only [flatLeafEntries]
    rw [h attr (by simp), flatLeafEntries_congr rest p q (fun b hb => h b (by simp [hb]))]

theorem flatLeafEntries_frame (attrs : List String) (p : JValue) (path : List String)
    (w : JValue) (h : (attrs.all (fun b => noOverlap path (splitPath b))) = true) :
    flatLeafEntries attrs (jset p path w) = flatLeafEntries attrs p := by
  apply flatLeafEntries_congr
  intro attr hattr
  have hb : noOverlap path (splitPath attr) = true := by
    rw [List.all_eq_true] at h
    exact h attr hattr
  exact jget_jset_indep (splitPath attr) path p w hb

theorem mem_flatLeafEntries : ∀ (attrs : List String) (p : JValue) (b : String)
    (e : String × String), b ∈ attrs →
    e ∈ leafEntries ("a." ++ b) (jget p (splitPath b)) → e ∈ flatLeafEntries attrs p
  | [], _, _, _, hb, _ => absurd hb (by simp)
  | a :: rest, p, b, e, hb, he => by
    rcases List.mem_cons.mp hb with h1 | h2
    · subst h1
      exact List.mem_append.mpr (Or.inl he)
    · exact List.mem_append.mpr (Or.inr (mem_flatLeafEntries rest p b e h2 he))

theorem templatizeAll_table : ∀ (attrs : List String) (p : JValue)
    (t : List (String × String)) (a : List String), attrsIndep attrs = true →
    (templatizeAll attrs p t a).2.1 = (flatLeafEntries attrs p).reverse ++ t
  | [], p, t, a, _ => by simp [templatizeAll, flatLeafEntries]
  | attr :: rest, p, t, a, hind => by
    simp only [templatizeAll, templatizeStep_eq]
    rw [templatizeAll_table rest _ _ _ (attrsIndep_tail attr rest hind),
      flatLeafEntries_frame rest p (splitPath attr) _ (attrsIndep_head attr rest hind)]
    show _ = (leafEntries ("a." ++ attr) (jget p (splitPath attr)) ++
      flatLeafEntries rest p).reverse ++ t
    rw [List.reverse_append, List.append_assoc]

/-- In a table whose keys are distinct, lookup of a present entry's key
returns that entry's value, whatever follows. -/
theorem lookup_nodup_append : ∀ (l t : List (String × String)) (e : String × String),
    e ∈ l → ((l.map Prod.fst).Nodup) → List.lookup e.1 (l ++ t) = some e.2
  | [], _, e, he, _ => absurd he (by simp)
  | x :: l, t, e, he, hnd => by
    obtain ⟨xk, xv⟩ := x
    obtain ⟨ek, ev⟩ := e
    rcases List.mem_cons.mp he with he1 | he2
    · rw [Prod.mk.injEq] at he1
      obtain ⟨hk, hv⟩ := he1
      subst hk
      subst hv
      simp [List.lookup]
    · rw [List.map_cons, List.nodup_cons] at hnd
      have hne : ek ≠ xk := by
        intro hh
        have hmm : ek ∈ l.map Prod.fst := List.mem_map.mpr ⟨(ek, ev), he2, rfl⟩
        rw [hh] at hmm
        exact hnd.1 hmm
      have hb : (ek == xk) = false := by
        rw [beq_eq_false_iff_ne]
        exact hne
      show List.lookup ek ((xk, xv) :: (l ++ t)) = some ev
      simp only [List.lookup, hb]
      exact lookup_nodup_append l t (ek, ev) he2 hnd.2

/-! ## Restore is exact on placeholder trees: it writes the escaped leaves -/

mutual
theorem restoreAttr_phVal : ∀ (pk : String) (v : JValue) (table : List (String × String)),
    (∀ e ∈ leafEntries pk v, List.lookup e.1 table = some e.2) →
    restoreAttr pk (phVal pk v) table = escLeaves v
  | pk, .obj fs, table, h => congrArg JValue.obj (restoreFields_phValF pk fs table h)
  | pk, .arr es, table, h => congrArg JValue.arr (restoreElems_phValE pk 0 es table h)
  | pk, .str s, table, h => by
    have he := h (escapeAttrKey pk, escapeTextContentForBrowser (.str s))
      (by simp [leafEntries])
    show (match List.lookup (escapeAttrKey pk) table with
      | some s2 => JValue.str s2 | none => JValue.undef) = _
    rw [he]
    rfl
  | pk, .num n, table, h => by
    have he := h (escapeAttrKey pk, escapeTextContentForBrowser (.num n))
      (by simp [leafEntries])
    show (match List.lookup (escapeAttrKey pk) table with
      | some s2 => JValue.str s2 | none => JValue.undef) = _
    rw [he]
    rfl
  | pk, .bool b, table, h => by
    have he := h (escapeAttrKey pk, escapeTextContentForBrowser (.bool b))
      (by simp [leafEntries])
    show (match List.lookup (escapeAttrKey pk) table with
      | some s2 => JValue.str s2 | none => JValue.undef) = _
    rw [he]
    rfl
  | pk, .jnull, table, h => by
    have he := h (escapeAttrKey pk, escapeTextContentForBrowser .jnull)
      (by simp [leafEntries])
    show (match List.lookup (escapeAttrKey pk) table with
      | some s2 => JValue.str s2 | none => JValue.undef) = _
    rw [he]
    rfl
  | pk, .undef, table, h => by
    have he := h (escapeAttrKey pk, escapeTextContentForBrowser .undef)
      (by simp [leafEntries])
    show (match List.lookup (escapeAttrKey pk) table with
      | some s2 => JValue.str s2 | none => JValue.undef) = _
    rw [he]
    rfl
theorem restoreFields_phValF : ∀ (pk : String) (fs : JFields)
    (table : List (String × String)),
    (∀ e ∈ leafEntriesF pk fs, List.lookup e.1 table = some e.2) →
    restoreFields pk (phValF pk fs) table = escLeavesF fs
  | _, .nil, _, _ => rfl
  | pk, .cons k v rest, table, h => by
    show JFields.cons k (restoreAttr (pk ++ "." ++ k) (phVal (pk ++ "." ++ k) v) table)
      (restoreFields pk (phValF pk rest) table) = .cons k (escLeaves v) (escLeavesF rest)
    rw [restoreAttr_phVal (pk ++ "." ++ k) v table
        (fun e he => h e (List.mem_append.mpr (Or.inl he))),
      restoreFields_phValF pk rest table
        (fun e he => h e (List.mem_append.mpr (Or.inr he)))]
theorem restoreElems_phValE : ∀ (pk : String) (i : Nat) (es : JElems)
    (table : List (String × String)),
    (∀ e ∈ leafEntriesE pk i es, List.lookup e.1 table = some e.2) →
    restoreElems pk i (phValE pk i es) table = escLeavesE es
  | _, _, .nil, _, _ => rfl
  | pk, i, .cons v rest, table, h => by
    show JElems.cons (restoreAttr (pk ++ "." ++ natStr i)
        (phVal (pk ++ "." ++ natStr i) v) table)
      (restoreElems pk (i + 1) (phValE pk (i + 1) rest) table) =
      .cons (escLeaves v) (escLeavesE rest)
    rw [restoreAttr_phVal (pk ++ "." ++ natStr i) v table
        (fun e he => h e (List.mem_append.mpr (Or.inl he))),
      restoreElems_phValE pk (i + 1) rest table
        (fun e he => h e (List.mem_append.mpr (Or.inr he)))]
end

/-! ## Leaves untouched by HTML escaping -/

mutual
/-- Every leaf is a string free of the five markup-significant characters —
exactly the values the restore round-trip reproduces verbatim. -/
def leavesInvariant : JValue → Bool
  | .obj fs => leavesInvariantF fs
  | .arr es => leavesInvariantE es
  | .str s => s.data.all (fun c => !(c = '&' || c = '>' || c = '<' ||
      c = Char.ofNat 34 || c = Char.ofNat 39))
  | _ => false
def leavesInvariantF : JFields → Bool
  | .nil => true
  | .cons _ v rest => leavesInvariant v && leavesInvariantF rest
def leavesInvariantE : JElems → Bool
  | .nil => true
  | .cons v rest => leavesInvariant v && leavesInvariantE rest
end

theorem escHtmlCore_id : ∀ (l : List Char),
    (l.all (fun c => !(c = '&' || c = '>' || c = '<' ||
      c = Char.ofNat 34 || c = Char.ofNat 39))) = true → escHtmlCore l = l
  | [], _ => rfl
  | c :: rest, h => by
    rw [List.all_cons, Bool.and_eq_true] at h
    have hc := h.1
    simp only [Bool.not_eq_eq_eq_not, Bool.not_true, decide_eq_false_iff_not,
      Bool.or_eq_false_iff, decide_eq_false_iff_not] at hc
    show escHtmlChar c ++ escHtmlCore rest = c :: rest
    rw [escHtmlCore_id rest h.2]
    simp only [escHtmlChar, if_neg hc.1.1.1.1, if_neg hc.1.1.1.2, if_neg hc.1.1.2,
      if_neg hc.1.2, if_neg hc.2]
    rfl

mutual
theorem escLeaves_invariant : ∀ (v : JValue), leavesInvariant v = true → escLeaves v = v
  | .obj fs, h => congrArg JValue.obj (escLeavesF_invariant fs h)
  | .arr es, h => congrArg JValue.arr (escLeavesE_invariant es h)
  | .str s, h => by
    show JValue.str (escapeHtmlString s) = .str s
    unfold escapeHtmlString
    rw [escHtmlCore_id s.data h]
  | .num _, h => Bool.noConfusion h
  | .bool _, h => Bool.noConfusion h
  | .jnull, h => Bool.noConfusion h
  | .undef, h => Bool.noConfusion h
theorem escLeavesF_invariant : ∀ (fs : JFields), leavesInvariantF fs = true →
    escLeavesF fs = fs
  | .nil, _ => rfl
  | .cons k v rest, h => by
    rw [show leavesInvariantF (.cons k v rest) =
      (leavesInvariant v && leavesInvariantF rest) from rfl, Bool.and_eq_true] at h
    show JFields.cons k (escLeaves v) (escLeavesF rest) = .cons k v rest
    rw [escLeaves_invariant v h.1, escLeavesF_invariant rest h.2]
theorem escLeavesE_invariant : ∀ (es : JElems), leavesInvariantE es = true →
    escLeavesE es = es
  | .nil, _ => rfl
  | .cons v rest, h => by
    rw [show leavesInvariantE (.cons v rest) =
      (leavesInvariant v && leavesInvariantE rest) from rfl, Bool.and_eq_true] at h
    show JElems.cons (escLeaves v) (escLeavesE rest) = .cons v rest
    rw [escLeaves_invariant v h.1, escLeavesE_invariant rest h.2]
end


/-- C3: Round-trip templating, amended. Flattening a template attribute and
unflattening it through the lookup table reproduces the HTML-ESCAPED leaf
values (`escLeaves`), not the original values: `restoreAttr` writes back the
`escapeTextContentForBrowser` image stored by `templatizeAttr`. The round
trip is exact precisely on trees whose leaves are strings free of the five
markup-significant characters. Requires the flat leaf keys of the attribute
to be distinct (the escaping collision of C1 can otherwise alias two
leaves). -/
theorem C3_roundtrip_escaped_amended (pk : String) (v : JValue)
    (t : List (String × String)) (a : List String)
    (hnd : ((leafEntries pk v).map Prod.fst).Nodup) :
    restoreAttr pk (templatizeAttr pk v t a).1 (templatizeAttr pk v t a).2.1 =
      escLeaves v ∧
    (leavesInvariant v = true →
      restoreAttr pk (templatizeAttr pk v t a).1 (templatizeAttr pk v t a).2.1 = v) := by
  have h1 : restoreAttr pk (templatizeAttr pk v t a).1 (templatizeAttr pk v t a).2.1 =
      escLeaves v := by
    rw [templatizeAttr_eq]
    apply restoreAttr_phVal
    intro e he
    exact lookup_nodup_append ((leafEntries pk v).reverse) t e
      (List.mem_reverse.mpr he)
      (by rw [List.map_reverse]; exact List.nodup_reverse.mpr hnd)
  exact ⟨h1, fun hinv => h1.trans (escLeaves_invariant v hinv)⟩

/-- Witness for C3 on an object with two markup-free string leaves. -/
theorem C3_roundtrip_escaped_amended_witness :
    restoreAttr "a.u" (templatizeAttr "a.u"
        (JValue.obj (.cons "x" (.str "X") (.cons "y" (.str "Y") .nil))) [] []).1
      (templatizeAttr "a.u"
        (JValue.obj (.cons "x" (.str "X") (.cons "y" (.str "Y") .nil))) [] []).2.1 =
      escLeaves (JValue.obj (.cons "x" (.str "X") (.cons "y" (.str "Y") .nil))) ∧
    restoreAttr "a.u" (templatizeAttr "a.u"
        (JValue.obj (.cons "x" (.str "X") (.cons "y" (.str "Y") .nil))) [] []).1
      (templatizeAttr "a.u"
        (JValue.obj (.cons "x" (.str "X") (.cons "y" (.str "Y") .nil))) [] []).2.1 =
      JValue.obj (.cons "x" (.str "X") (.cons "y" (.str "Y") .nil)) :=
  have h := C3_roundtrip_escaped_amended "a.u"
    (JValue.obj (.cons "x" (.str "X") (.cons "y" (.str "Y") .nil))) [] [] (by decide)
  ⟨h.1, h.2 (by decide)⟩

/-- C2: Props after a render call, amended. The wrapper does NOT operate on
a copy: it writes into the caller's tree and then restores it in place, so
after a miss call the caller's props carry the escaped leaf strings at every
template attribute path, while every path independent of all template
attributes is unchanged. (Exact restoration of a template leaf holds only
when its value is already a markup-free string, by C3.) -/
theorem C2_props_restored_amended
    (g : GlobalConfig) (cfg : CmpConfig) (cmpName rootID : String)
    (renderFn : JValue → String) (props : JValue)
    (store : List (String × CacheEntry)) (queue : List CacheEvent) (gk : JValue)
    (hen : g.enabled = true)
    (hreg : List.lookup cmpName g.components = some cfg)
    (hgen : cfg.cacheKeyGen props = .val gk)
    (hnn : gk ≠ JValue.jnull)
    (hlook : List.lookup (cacheKeyOf cfg cmpName (jsToString gk) props) store = none)
    (hindep : attrsIndep cfg.templateAttrs = true)
    (hhp : ∀ a ∈ cfg.templateAttrs, hasPath props (splitPath a) = true)
    (hnd : ((flatLeafEntries cfg.templateAttrs props).map Prod.fst).Nodup) :
    (∀ b ∈ cfg.templateAttrs,
      jget (handle g cmpName rootID renderFn props store queue).props (splitPath b) =
        escLeaves (jget props (splitPath b))) ∧
    (∀ q : List String, (∀ a ∈ cfg.templateAttrs, noOverlap (splitPath a) q = true) →
      jget (handle g cmpName rootID renderFn props store queue).props q = jget props q) := by
  have hprops : (handle g cmpName rootID renderFn props store queue).props =
      (missParts cfg props renderFn).2 := by
    rw [handle_wrapped g cfg cmpName rootID renderFn props store queue hen hreg,
      mount_miss cfg cmpName rootID renderFn g.hasEventCallback props store queue gk
        hgen hnn hlook]
  by_cases hemp : cfg.templateAttrs = []
  · have h2 : (missParts cfg props renderFn).2 = props := by
      simp only [missParts]
      rw [if_neg (fun hcon => hcon hemp), hemp]
      rfl
    constructor
    · intro b hb
      rw [hemp] at hb
      exact absurd hb (by simp)
    · intro q _
      rw [hprops, h2]
  · have hm2 : (missParts cfg props renderFn).2 =
        restoreAllProps cfg.templateAttrs (templatizeAll cfg.templateAttrs props [] []).1
          (templatizeAll cfg.templateAttrs props [] []).2.1 := by
      simp only [missParts]
      rw [if_pos hemp]
      rfl
    have htab : (templatizeAll cfg.templateAttrs props [] []).2.1 =
        (flatLeafEntries cfg.templateAttrs props).reverse ++ [] :=
      templatizeAll_table cfg.templateAttrs props [] [] hindep
    have hT : (templatizeAll cfg.templateAttrs props [] []).1 =
        foldAttrs (fun b w => phVal ("a." ++ b) w) cfg.templateAttrs props :=
      templatizeAll_fst cfg.templateAttrs props [] []
    have hhpT : ∀ a ∈ cfg.templateAttrs,
        hasPath (foldAttrs (fun b w => phVal ("a." ++ b) w) cfg.templateAttrs props)
          (splitPath a) = true :=
      hasPath_foldAttrs_all cfg.templateAttrs _ props hindep hhp
    constructor
    · intro b hb
      rw [hprops, hm2, restoreAllProps_fold, hT,
        jget_foldAttrs_at cfg.templateAttrs _ _ hindep hhpT b hb,
        jget_foldAttrs_at cfg.templateAttrs _ props hindep hhp b hb]
      show restoreAttr ("a." ++ b) (phVal ("a." ++ b) (jget props (splitPath b)))
        (templatizeAll cfg.templateAttrs props [] []).2.1 =
        escLeaves (jget props (splitPath b))
      apply restoreAttr_phVal
      intro e he
      rw [htab]
      exact lookup_nodup_append ((flatLeafEntries cfg.templateAttrs props).reverse) [] e
        (List.mem_reverse.mpr (mem_flatLeafEntries cfg.templateAttrs props b e hb he))
        (by rw [List.map_reverse]; exact List.nodup_reverse.mpr hnd)
    · intro q hq
      rw [hprops, hm2, restoreAllProps_fold, hT,
        jget_foldAttrs_indep cfg.templateAttrs _ _ q hq,
        jget_foldAttrs_indep cfg.templateAttrs _ props q hq]

/-- Witness for C2: the registered component with template attribute "text"
called on an object with an independent second attribute "other". -/
theorem C2_props_restored_amended_witness :
    jget (handle gTemplate "C" "1" renderX props4a [] []).props (splitPath "text") =
      escLeaves (jget props4a (splitPath "text")) ∧
    jget (handle gTemplate "C" "1" renderX props4a [] []).props ["other"] =
      jget props4a ["other"] :=
  have h := C2_props_restored_amended gTemplate cfgTemplate "C" "1" renderX props4a
    [] [] (JValue.str "_defaultKey") rfl rfl rfl (by decide) rfl (by decide)
    (by decide) (by decide)
  ⟨h.1 "text" (by decide), h.2 ["other"] (by decide)⟩


end ReactSSR
